import Mathlib

/-!
# Verification of the duplicate-file finder (`find_duplicates.py`)

Shallow embedding of the duplicate-detection and resolution engine:

* `collect_files` — the per-file loop of `collect_files` (Size Index),
* `find_duplicates` — size-bucket filtering, hashing, digest grouping,
* `pick_original` — the canonical-original selection policy,
* the step-5 resolver loop of `main` in both quarantine and delete mode.

File contents and the filesystem are external state, so the hasher is an
oracle `Path → Option Digest` (`none` = read failure), file sizes an oracle
`Path → Option Nat` (`none` = `OSError` from `os.path.getsize`), and
move/delete failures an oracle `Path → Bool`.  Python `dict`s (which keep
key insertion order) are modelled as association lists; destination paths
inside the fixed quarantine directory are modelled by their final name
component.
-/

namespace FindDup

abbrev Path := String
abbrev Digest := String

/-- A path separator as used by `os.path` (`/` or `\`). -/
def isSep (c : Char) : Bool := c = '/' ∨ c = '\\'

/-- `os.path.basename`: the part of the path after the last separator. -/
def basename (p : Path) : String :=
  ⟨p.data.foldl (fun acc c => if isSep c then [] else acc ++ [c]) []⟩

/-- Index of the last `'.'` in a character list, if any
(the `rfind('.')` of `os.path.splitext`). -/
def lastDotIdx (l : List Char) : Option Nat :=
  ((l.enum.filter (fun ic => ic.2 = '.')).getLast?).map Prod.fst

/-- `os.path.splitext` restricted to a single path component: split at the
last dot, unless every character before that dot is itself a dot (the
leading-dot rule of CPython's `genericpath._splitext`), in which case the
extension is empty. -/
def splitextName (s : String) : String × String :=
  match lastDotIdx s.data with
  | none => (s, "")
  | some d =>
    if (s.data.take d).any (fun c => c ≠ '.') then
      (⟨s.data.take d⟩, ⟨s.data.drop d⟩)
    else (s, "")

theorem string_data_append (a b : String) : (a ++ b).data = a.data ++ b.data := by
  cases a; cases b; rfl

theorem string_length_append (a b : String) :
    (a ++ b).length = a.length + b.length := by
  show (a ++ b).data.length = a.data.length + b.data.length
  rw [string_data_append, List.length_append]

/-- Splitting a name at its extension and re-concatenating restores the name. -/
theorem splitext_join (s : String) :
    (splitextName s).1 ++ (splitextName s).2 = s := by
  unfold splitextName
  cases h : lastDotIdx s.data with
  | none =>
    show s ++ "" = s
    exact String.append_empty s
  | some d =>
    by_cases hc : (s.data.take d).any (fun c => c ≠ '.')
    · simp only [hc, if_pos]
      show String.mk (s.data.take d ++ s.data.drop d) = s
      rw [List.take_append_drop]
    · simp only [hc, if_neg]
      exact String.append_empty s

/-! ## Decimal rendering of a counter (the `f"{base}_{counter}{ext}"` format) -/

/-- The ASCII digit for `d < 10`. -/
def digitChar (d : Nat) : Char := Char.ofNat (48 + d)

/-- Big-endian decimal digits, with structural fuel (`fuel ≥ n` suffices,
and the callers always pass `fuel = n`). -/
def natReprGo : Nat → Nat → List Char
  | 0, n => [digitChar (n % 10)]
  | fuel + 1, n =>
    if n < 10 then [digitChar n]
    else natReprGo fuel (n / 10) ++ [digitChar (n % 10)]

/-- Big-endian decimal digits of `n`. -/
def natReprAux (n : Nat) : List Char := natReprGo n n

/-- Decimal rendering of a natural number, as Python's `str(n)` produces it. -/
def natRepr (n : Nat) : String := ⟨natReprAux n⟩

/-- Decode a digit string back to the number: left fold base 10. -/
def decodeDigits (l : List Char) : Nat :=
  l.foldl (fun a c => a * 10 + (c.toNat - 48)) 0

theorem decode_foldl_init (l : List Char) (a : Nat) :
    l.foldl (fun a c => a * 10 + (c.toNat - 48)) a
      = a * 10 ^ l.length + decodeDigits l := by
  induction l generalizing a with
  | nil => simp [decodeDigits]
  | cons c cs ih =>
    simp only [List.foldl_cons, decodeDigits, List.length_cons]
    rw [ih, ih (0 * 10 + (c.toNat - 48))]
    ring

theorem digitChar_toNat {d : Nat} (h : d < 10) : (digitChar d).toNat = 48 + d := by
  interval_cases d <;> decide

theorem decode_natReprGo : ∀ fuel n, n ≤ fuel →
    decodeDigits (natReprGo fuel n) = n := by
  intro fuel
  induction fuel with
  | zero =>
    intro n hn
    have : n = 0 := Nat.le_zero.mp hn
    subst this
    simp only [natReprGo, decodeDigits, List.foldl_cons, List.foldl_nil]
    rw [digitChar_toNat (by omega)]
  | succ fuel ih =>
    intro n hn
    rw [natReprGo]
    by_cases h : n < 10
    · simp only [h, if_pos, decodeDigits, List.foldl_cons, List.foldl_nil]
      rw [digitChar_toNat h]
      omega
    · simp only [h, if_neg, not_false_iff]
      rw [decodeDigits, List.foldl_append]
      rw [decode_foldl_init]
      rw [show (List.foldl (fun a c => a * 10 + (c.toNat - 48)) 0 (natReprGo fuel (n / 10)))
            = decodeDigits (natReprGo fuel (n / 10)) from rfl]
      rw [ih (n / 10) (by omega)]
      simp only [decodeDigits, List.foldl_cons, List.foldl_nil, List.length_cons,
        List.length_nil]
      rw [digitChar_toNat (Nat.mod_lt n (by omega))]
      omega

theorem decode_natReprAux (n : Nat) : decodeDigits (natReprAux n) = n :=
  decode_natReprGo n n (le_refl n)

theorem natReprAux_inj {m n : Nat} (h : natReprAux m = natReprAux n) : m = n := by
  have := congrArg decodeDigits h
  rwa [decode_natReprAux, decode_natReprAux] at this

theorem natRepr_inj {m n : Nat} (h : natRepr m = natRepr n) : m = n :=
  natReprAux_inj (congrArg String.data h)

/-! ## The destination collision loop of `main` (step 5, quarantine mode)

```python
base, ext = os.path.splitext(dest)
counter = 1
while os.path.exists(dest):
    dest = f"{base}_{counter}{ext}"
    counter += 1
```

`os.path.exists` against the quarantine directory is modelled by membership
of the name in the (finite) list `names` of names currently present there.
The unbounded `while` loop is modelled with explicit fuel;
`searchDest_spec` below proves that `names.length + 1` rounds of fuel
always reach a name that is free, so the fuelled function agrees with the
Python loop. -/

/-- The disambiguated candidate name for a given counter value:
`f"{base}_{counter}{ext}"`. -/
def disamb (base ext : String) (counter : Nat) : String :=
  base ++ "_" ++ natRepr counter ++ ext

/-- One-to-one translation of the `while os.path.exists(dest)` loop,
with fuel. -/
def searchDest (names : List String) (base ext : String) :
    Nat → Nat → String → String
  | 0, _, dest => dest
  | fuel + 1, counter, dest =>
    if dest ∈ names then
      searchDest names base ext fuel (counter + 1) (disamb base ext counter)
    else dest

/-- The name the loop tests `k` steps after reaching state
(`counter`, `dest`). -/
def candAt (base ext : String) : Nat → String → Nat → String
  | _, dest, 0 => dest
  | c, _, k + 1 => candAt base ext (c + 1) (disamb base ext c) k

/-- The destination name chosen for a file named `fname`, starting from the
initial `dest` and the `splitext` of `dest`, exactly as `main` does. -/
def freshDest (names : List String) (fname : String) : String :=
  let pr := splitextName fname
  searchDest names pr.1 pr.2 (names.length + 1) 1 fname

theorem candAt_zero (base ext : String) (c : Nat) (dest : String) :
    candAt base ext c dest 0 = dest := rfl

theorem candAt_succ (base ext : String) (c : Nat) (dest : String) (k : Nat) :
    candAt base ext c dest (k + 1) = disamb base ext (c + k) := by
  induction k generalizing c dest with
  | zero => rfl
  | succ k ih =>
    show candAt base ext (c + 1) (disamb base ext c) (k + 1) = _
    rw [ih]
    congr 1
    omega

theorem disamb_inj {base ext : String} {i j : Nat}
    (h : disamb base ext i = disamb base ext j) : i = j := by
  have h1 := congrArg String.data h
  unfold disamb at h1
  rw [string_data_append, string_data_append, string_data_append,
      string_data_append, string_data_append, string_data_append] at h1
  have h2 := List.append_cancel_right h1
  have h3 := List.append_cancel_left h2
  exact natReprAux_inj h3

theorem disamb_length (base ext : String) (c : Nat) :
    (disamb base ext c).length
      = base.length + 1 + (natRepr c).length + ext.length := by
  unfold disamb
  rw [string_length_append, string_length_append, string_length_append]
  rfl

theorem natReprGo_ne_nil (fuel n : Nat) : natReprGo fuel n ≠ [] := by
  cases fuel <;> rw [natReprGo]
  · simp
  · by_cases h : n < 10
    · simp [h]
    · simp [h]

theorem natReprAux_ne_nil (n : Nat) : natReprAux n ≠ [] :=
  natReprGo_ne_nil n n

theorem natRepr_length_pos (c : Nat) : 0 < (natRepr c).length :=
  List.length_pos.mpr (natReprAux_ne_nil c)

/-- The candidate names tested by the loop are pairwise distinct, provided
the initial `dest` is the concatenation of `base` and `ext` (which
`splitext_join` guarantees for the loop's actual arguments). -/
theorem candAt_inj {base ext dest : String} (hjoin : base ++ ext = dest)
    {k k' : Nat} (h : candAt base ext 1 dest k = candAt base ext 1 dest k') :
    k = k' := by
  match k, k' with
  | 0, 0 => rfl
  | 0, k' + 1 =>
    exfalso
    rw [candAt_zero, candAt_succ, ← hjoin] at h
    have hl := congrArg String.length h
    rw [string_length_append, disamb_length] at hl
    have := natRepr_length_pos (1 + k')
    omega
  | k + 1, 0 =>
    exfalso
    rw [candAt_zero, candAt_succ, ← hjoin] at h
    have hl := congrArg String.length h
    rw [string_length_append, disamb_length] at hl
    have := natRepr_length_pos (1 + k)
    omega
  | k + 1, k' + 1 =>
    rw [candAt_succ, candAt_succ] at h
    have := disamb_inj h
    omega

/-- If some candidate within the fuel bound is free, the loop returns a
name that is not present at the destination. -/
theorem searchDest_spec (names : List String) (base ext : String) :
    ∀ fuel c dest, (∃ k ≤ fuel, candAt base ext c dest k ∉ names) →
      searchDest names base ext fuel c dest ∉ names := by
  intro fuel
  induction fuel with
  | zero =>
    intro c dest ⟨k, hk, hfree⟩
    have : k = 0 := Nat.le_zero.mp hk
    subst this
    exact hfree
  | succ fuel ih =>
    intro c dest ⟨k, hk, hfree⟩
    rw [searchDest]
    by_cases hmem : dest ∈ names
    · simp only [hmem, if_pos]
      apply ih
      match k with
      | 0 => exact absurd hmem hfree
      | k + 1 =>
        refine ⟨k, by omega, ?_⟩
        exact hfree
    · rw [if_neg hmem]; exact hmem

/-- Pigeonhole: among the first `names.length + 1` candidates, at least one
is not in `names`. -/
theorem exists_free_cand (names : List String) {base ext dest : String}
    (hjoin : base ++ ext = dest) :
    ∃ k ≤ names.length, candAt base ext 1 dest k ∉ names := by
  by_contra hall
  push_neg at hall
  have hmem : ∀ k : Fin (names.length + 1),
      candAt base ext 1 dest k.val ∈ names := by
    intro k
    exact hall k.val (by omega)
  have hinj : Function.Injective
      (fun k : Fin (names.length + 1) => candAt base ext 1 dest k.val) := by
    intro a b hab
    exact Fin.ext (candAt_inj hjoin hab)
  have hcard : (Finset.univ.image
      (fun k : Fin (names.length + 1) => candAt base ext 1 dest k.val)).card
      = names.length + 1 := by
    rw [Finset.card_image_of_injective _ hinj, Finset.card_univ, Fintype.card_fin]
  have hsub : (Finset.univ.image
      (fun k : Fin (names.length + 1) => candAt base ext 1 dest k.val))
      ⊆ names.toFinset := by
    intro x hx
    rw [Finset.mem_image] at hx
    obtain ⟨k, _, rfl⟩ := hx
    rw [List.mem_toFinset]
    exact hmem k
  have := Finset.card_le_card hsub
  have := names.toFinset_card_le
  omega

/-- The collision loop never returns a name already present at the
destination. -/
theorem freshDest_not_mem (names : List String) (fname : String) :
    freshDest names fname ∉ names := by
  unfold freshDest
  apply searchDest_spec
  obtain ⟨k, hk, hfree⟩ := exists_free_cand names (splitext_join fname)
  exact ⟨k, by omega, hfree⟩

/-! ## Resolution Policy: `pick_original`

```python
def pick_original(paths):
    return min(paths, key=lambda p: (len(p), p))
```

Python's `min` scans left to right and replaces the current best only on a
strictly smaller key, so it returns the first element attaining the
minimal key.  Python raises on an empty sequence; the model returns `""`
there (the value is irrelevant: groups always have at least two members).
`len` of a Python `str` is its number of characters, i.e. `String.length`;
`<` on Python strings is lexicographic comparison of code points, i.e. the
core `String` order. -/

/-- The strict order induced by the key `(len(p), p)`. -/
def KeyLT (p q : Path) : Prop :=
  p.length < q.length ∨ (p.length = q.length ∧ p < q)

instance (p q : Path) : Decidable (KeyLT p q) :=
  inferInstanceAs (Decidable (_ ∨ _))

/-- `min(paths, key=lambda p: (len(p), p))`, first minimum wins. -/
def pick_original : List Path → Path
  | [] => ""
  | p :: ps => ps.foldl (fun acc q => if KeyLT q acc then q else acc) p

theorem keyLT_irrefl (p : Path) : ¬ KeyLT p p := by
  unfold KeyLT
  push_neg
  exact ⟨le_refl _, fun _ => lt_irrefl _⟩

theorem keyLT_trans {p q r : Path} (h1 : KeyLT p q) (h2 : KeyLT q r) :
    KeyLT p r := by
  unfold KeyLT at *
  rcases h1 with h1 | ⟨h1l, h1s⟩ <;> rcases h2 with h2 | ⟨h2l, h2s⟩
  · exact Or.inl (lt_trans h1 h2)
  · exact Or.inl (h2l ▸ h1)
  · exact Or.inl (h1l ▸ h2)
  · exact Or.inr ⟨h1l.trans h2l, lt_trans h1s h2s⟩

theorem keyLT_total {p q : Path} (h : p ≠ q) : KeyLT p q ∨ KeyLT q p := by
  unfold KeyLT
  rcases Nat.lt_trichotomy p.length q.length with hl | hl | hl
  · exact Or.inl (Or.inl hl)
  · rcases lt_trichotomy p q with hs | hs | hs
    · exact Or.inl (Or.inr ⟨hl, hs⟩)
    · exact absurd hs h
    · exact Or.inr (Or.inr ⟨hl.symm, hs⟩)
  · exact Or.inr (Or.inl hl)

theorem keyLT_asymm {p q : Path} (h : KeyLT p q) : ¬ KeyLT q p :=
  fun h' => keyLT_irrefl p (keyLT_trans h h')

/-- The fold underlying `pick_original` returns a member that no other
member strictly precedes. -/
theorem pick_fold_min (ps : List Path) :
    ∀ acc, (ps.foldl (fun acc q => if KeyLT q acc then q else acc) acc
        = acc ∨ ps.foldl (fun acc q => if KeyLT q acc then q else acc) acc ∈ ps)
      ∧ ∀ x, (x = acc ∨ x ∈ ps) →
        ¬ KeyLT x (ps.foldl (fun acc q => if KeyLT q acc then q else acc) acc) := by
  induction ps with
  | nil =>
    intro acc
    refine ⟨Or.inl rfl, ?_⟩
    rintro x (rfl | hx)
    · exact keyLT_irrefl x
    · exact absurd hx (List.not_mem_nil x)
  | cons q ps ih =>
    intro acc
    simp only [List.foldl_cons]
    by_cases hq : KeyLT q acc
    · rw [if_pos hq]
      obtain ⟨hmem, hmin⟩ := ih q
      constructor
      · rcases hmem with h | h
        · exact Or.inr (by rw [h]; exact List.mem_cons_self q ps)
        · exact Or.inr (List.mem_cons_of_mem q h)
      · rintro x (rfl | hx)
        · intro hcon
          exact hmin q (Or.inl rfl) (keyLT_trans hq hcon)
        · rcases List.mem_cons.mp hx with rfl | hx'
          · exact hmin x (Or.inl rfl)
          · exact hmin x (Or.inr hx')
    · rw [if_neg hq]
      obtain ⟨hmem, hmin⟩ := ih acc
      constructor
      · rcases hmem with h | h
        · exact Or.inl h
        · exact Or.inr (List.mem_cons_of_mem q h)
      · rintro x (rfl | hx)
        · exact hmin x (Or.inl rfl)
        · rcases List.mem_cons.mp hx with rfl | hx'
          · intro hcon
            by_cases hqa : x = acc
            · exact hmin acc (Or.inl rfl) (hqa ▸ hcon)
            · rcases keyLT_total hqa with ht | ht
              · exact hq ht
              · exact hmin acc (Or.inl rfl) (keyLT_trans ht hcon)
          · exact hmin x (Or.inr hx')

theorem pick_original_mem {paths : List Path} (h : paths ≠ []) :
    pick_original paths ∈ paths := by
  match paths with
  | p :: ps =>
    show pick_original (p :: ps) ∈ p :: ps
    rcases (pick_fold_min ps p).1 with h' | h'
    · rw [pick_original, h']
      exact List.mem_cons_self p ps
    · exact List.mem_cons_of_mem p h'

theorem pick_original_min {paths : List Path} (_h : paths ≠ []) :
    ∀ q ∈ paths, ¬ KeyLT q (pick_original paths) := by
  match paths with
  | p :: ps =>
    intro q hq
    rcases List.mem_cons.mp hq with rfl | hq'
    · exact (pick_fold_min ps q).2 q (Or.inl rfl)
    · exact (pick_fold_min ps p).2 q (Or.inr hq')

theorem keyMin_unique {l : List Path} {m₁ m₂ : Path} (h₁ : m₁ ∈ l) (h₂ : m₂ ∈ l)
    (hmin₁ : ∀ q ∈ l, ¬ KeyLT q m₁) (hmin₂ : ∀ q ∈ l, ¬ KeyLT q m₂) :
    m₁ = m₂ := by
  by_contra hne
  rcases keyLT_total hne with ht | ht
  · exact hmin₂ m₁ h₁ ht
  · exact hmin₁ m₂ h₂ ht

theorem pick_original_perm {l l' : List Path} (h : l ≠ []) (hp : l.Perm l') :
    pick_original l = pick_original l' := by
  have h' : l' ≠ [] := by
    intro he
    subst he
    exact h (List.eq_nil_of_length_eq_zero hp.length_eq)
  refine @keyMin_unique l _ _ (pick_original_mem h) ?_ (pick_original_min h) ?_
  · exact hp.mem_iff.mpr (pick_original_mem h')
  · intro q hq
    exact pick_original_min h' q (hp.mem_iff.mp hq)

/-- If the original is not removed from the member list, the selection is
unchanged (needed for the as-if-absent arguments). -/
theorem pick_original_filter_ne {l : List Path} {p : Path} (h : l ≠ [])
    (hne : pick_original l ≠ p) :
    pick_original (l.filter (fun q => q ≠ p)) = pick_original l := by
  have hmem : pick_original l ∈ l.filter (fun q => q ≠ p) :=
    List.mem_filter.mpr ⟨pick_original_mem h, by simpa using hne⟩
  have h' : l.filter (fun q => q ≠ p) ≠ [] := List.ne_nil_of_mem hmem
  refine keyMin_unique (pick_original_mem h') hmem ?_ ?_
  · exact pick_original_min h'
  · intro q hq
    exact pick_original_min h q (List.mem_of_mem_filter hq)

/-! ## Association-list model of Python dicts

Python dicts preserve key insertion order, so `defaultdict(list)` is
modelled as an association list: appending under a fresh key adds the key
at the end, appending under a present key extends its list in place. -/

/-- `m[k].append(v)` on a `defaultdict(list)`. -/
def addTo {α β : Type} [DecidableEq α] :
    List (α × List β) → α → β → List (α × List β)
  | [], k, v => [(k, [v])]
  | (k', vs) :: rest, k, v =>
    if k' = k then (k', vs ++ [v]) :: rest else (k', vs) :: addTo rest k v

/-- Dict lookup; `[]` for a missing key (the `defaultdict` default). -/
def lookupD {α β : Type} [DecidableEq α] :
    List (α × List β) → α → List β
  | [], _ => []
  | (k', vs) :: rest, k => if k' = k then vs else lookupD rest k

/-- The key sequence of the dict. -/
def keysOf {α β : Type} (m : List (α × List β)) : List α := m.map Prod.fst

theorem lookupD_addTo_self {α β : Type} [DecidableEq α]
    (m : List (α × List β)) (k : α) (v : β) :
    lookupD (addTo m k v) k = lookupD m k ++ [v] := by
  induction m with
  | nil => simp [addTo, lookupD]
  | cons kv rest ih =>
    obtain ⟨k', vs⟩ := kv
    by_cases h : k' = k
    · subst h
      simp [addTo, lookupD]
    · simp [addTo, lookupD, h, ih]

theorem lookupD_addTo_ne {α β : Type} [DecidableEq α]
    (m : List (α × List β)) (k k' : α) (v : β) (h : k' ≠ k) :
    lookupD (addTo m k v) k' = lookupD m k' := by
  induction m with
  | nil =>
    simp only [addTo, lookupD, if_neg (fun he : k = k' => h he.symm)]
  | cons kv rest ih =>
    obtain ⟨k'', vs⟩ := kv
    simp only [addTo]
    by_cases h2 : k'' = k
    · subst h2
      have hne : ¬ (k'' = k') := fun he => h he.symm
      simp only [if_pos rfl, lookupD, if_neg hne]
    · simp only [if_neg h2, lookupD]
      by_cases h3 : k'' = k'
      · rw [if_pos h3, if_pos h3]
      · rw [if_neg h3, if_neg h3]
        exact ih

theorem keysOf_addTo {α β : Type} [DecidableEq α]
    (m : List (α × List β)) (k : α) (v : β) :
    keysOf (addTo m k v) = if k ∈ keysOf m then keysOf m else keysOf m ++ [k] := by
  induction m with
  | nil => simp [addTo, keysOf]
  | cons kv rest ih =>
    obtain ⟨k', vs⟩ := kv
    by_cases h : k' = k
    · subst h
      simp [addTo, keysOf]
    · have hne : ¬ (k = k') := fun he => h he.symm
      simp only [addTo, if_neg h, keysOf, List.map_cons] at ih ⊢
      rw [ih]
      by_cases hm : k ∈ List.map Prod.fst rest
      · simp [List.mem_cons, hne, hm]
      · simp [List.mem_cons, hne, hm]

theorem keysOf_addTo_nodup {α β : Type} [DecidableEq α]
    {m : List (α × List β)} (h : (keysOf m).Nodup) (k : α) (v : β) :
    (keysOf (addTo m k v)).Nodup := by
  rw [keysOf_addTo]
  by_cases hm : k ∈ keysOf m
  · simpa [hm] using h
  · rw [if_neg hm, List.nodup_append]
    exact ⟨h, List.nodup_singleton _,
      fun a ha hb => hm ((List.mem_singleton.mp hb) ▸ ha)⟩

theorem lookupD_eq_of_mem {α β : Type} [DecidableEq α]
    {m : List (α × List β)} (hnd : (keysOf m).Nodup) {k : α} {vs : List β}
    (h : (k, vs) ∈ m) : lookupD m k = vs := by
  induction m with
  | nil => exact absurd h (List.not_mem_nil _)
  | cons kv rest ih =>
    obtain ⟨k', vs'⟩ := kv
    have hkeys : keysOf ((k', vs') :: rest) = k' :: keysOf rest := rfl
    have hnodup := List.nodup_cons.mp (hkeys ▸ hnd)
    rcases List.mem_cons.mp h with he | hm
    · injection he with h1 h2
      subst h1
      subst h2
      simp [lookupD]
    · have hk : k' ≠ k := by
        intro he
        subst he
        exact hnodup.1 (List.mem_map.mpr ⟨(k', vs), hm, rfl⟩)
      simp only [lookupD, if_neg hk]
      exact ih hnodup.2 hm

theorem mem_of_lookupD {α β : Type} [DecidableEq α]
    {m : List (α × List β)} {k : α} (h : k ∈ keysOf m) :
    (k, lookupD m k) ∈ m := by
  induction m with
  | nil => simp [keysOf] at h
  | cons kv rest ih =>
    obtain ⟨k', vs'⟩ := kv
    by_cases he : k' = k
    · subst he
      simp [lookupD]
    · simp only [lookupD, if_neg he]
      apply List.mem_cons_of_mem
      apply ih
      simpa [keysOf, Ne.symm he] using h

theorem lookupD_eq_nil_of_not_mem {α β : Type} [DecidableEq α]
    {m : List (α × List β)} {k : α} (h : k ∉ keysOf m) :
    lookupD m k = [] := by
  induction m with
  | nil => rfl
  | cons kv rest ih =>
    obtain ⟨k', vs'⟩ := kv
    simp only [keysOf, List.map_cons, List.mem_cons, not_or] at h
    simp only [lookupD, if_neg (fun he : k' = k => h.1 he.symm)]
    exact ih (by simpa [keysOf] using h.2)

/-! ## Duplicate Grouper: `find_duplicates`

```python
def find_duplicates(size_map):
    hash_map = defaultdict(list)
    candidates = {sz: paths for sz, paths in size_map.items() if len(paths) > 1}
    for size, paths in candidates.items():
        for fpath in paths:
            fhash = get_file_hash(fpath)
            if fhash:
                hash_map[fhash].append(fpath)
    duplicates = {h: paths for h, paths in hash_map.items() if len(paths) > 1}
    return duplicates
```

`get_file_hash` reads the filesystem, so it is an oracle
`Path → Option Digest` (`none` models the `return None` on
`PermissionError`/`OSError`; a SHA-256 hex digest is a string).  Note that
`hash_map` is a single dict shared by *all* size buckets. -/

/-- The Hasher oracle standing for `get_file_hash`. -/
abbrev Hasher := Path → Option Digest

/-- A size map (`size -> [filepath, ...]`) as produced by `collect_files`. -/
abbrev SizeMap := List (Nat × List Path)

/-- `candidates`: only size buckets with 2+ members. -/
def candBuckets (sm : SizeMap) : SizeMap :=
  sm.filter (fun b => 1 < b.2.length)

/-- The sequence of paths passed to `get_file_hash`, in processing order. -/
def hashedPaths (sm : SizeMap) : List Path :=
  (candBuckets sm).flatMap (fun b => b.2)

/-- The inner hashing loop over one bucket, threading `hash_map`. -/
def hashFold (H : Hasher) (paths : List Path) (m : List (Digest × List Path)) :
    List (Digest × List Path) :=
  paths.foldl
    (fun m p =>
      match H p with
      | some d => addTo m d p
      | none => m) m

/-- `hash_map` after hashing every candidate bucket. -/
def buildHashMap (H : Hasher) (sm : SizeMap) : List (Digest × List Path) :=
  (candBuckets sm).foldl (fun m b => hashFold H b.2 m) []

/-- `find_duplicates`: groups, keyed by digest, with 2+ members. -/
def find_duplicates (H : Hasher) (sm : SizeMap) : List (Digest × List Path) :=
  (buildHashMap H sm).filter (fun b => 1 < b.2.length)

/-- The candidate paths whose hash is `d`, in processing order. -/
def survivors (H : Hasher) (sm : SizeMap) (d : Digest) : List Path :=
  (hashedPaths sm).filter (fun p => H p = some d)

theorem lookupD_hashFold (H : Hasher) (paths : List Path)
    (m : List (Digest × List Path)) (d : Digest) :
    lookupD (hashFold H paths m) d
      = lookupD m d ++ paths.filter (fun p => H p = some d) := by
  induction paths generalizing m with
  | nil => simp [hashFold]
  | cons p ps ih =>
    show lookupD (hashFold H ps _) d = _
    rw [ih]
    cases hp : H p with
    | none =>
      have : (decide (H p = some d)) = false := by simp [hp]
      simp [hp, List.filter_cons, this]
    | some d' =>
      by_cases hd : d' = d
      · subst hd
        have : (decide (H p = some d')) = true := by simp [hp]
        simp [hp, List.filter_cons, this, lookupD_addTo_self, List.append_assoc]
      · have : (decide (H p = some d)) = false := by simp [hp, hd]
        simp [hp, List.filter_cons, this, hd,
          lookupD_addTo_ne _ _ _ _ (Ne.symm hd)]

theorem keysOf_hashFold_nodup (H : Hasher) (paths : List Path)
    {m : List (Digest × List Path)} (h : (keysOf m).Nodup) :
    (keysOf (hashFold H paths m)).Nodup := by
  induction paths generalizing m with
  | nil => exact h
  | cons p ps ih =>
    show (keysOf (hashFold H ps _)).Nodup
    cases hp : H p with
    | none => simpa [hp] using ih h
    | some d => simpa [hp] using ih (keysOf_addTo_nodup h d p)

theorem lookupD_buildFold (H : Hasher) (bs : SizeMap)
    (m : List (Digest × List Path)) (d : Digest) :
    lookupD (bs.foldl (fun m b => hashFold H b.2 m) m) d
      = lookupD m d ++ (bs.flatMap (fun b => b.2)).filter (fun p => H p = some d) := by
  induction bs generalizing m with
  | nil => simp
  | cons b bs ih =>
    simp only [List.foldl_cons, List.flatMap_cons, List.filter_append]
    rw [ih, lookupD_hashFold, List.append_assoc]

/-- The group `hash_map[d]` holds exactly the candidates hashing to `d`. -/
theorem lookupD_buildHashMap (H : Hasher) (sm : SizeMap) (d : Digest) :
    lookupD (buildHashMap H sm) d = survivors H sm d := by
  unfold buildHashMap survivors hashedPaths
  rw [lookupD_buildFold]
  rfl

theorem keysOf_buildFold_nodup (H : Hasher) (bs : SizeMap) :
    ∀ m, (keysOf m).Nodup →
      (keysOf (bs.foldl (fun m b => hashFold H b.2 m) m)).Nodup := by
  induction bs with
  | nil => exact fun m h => h
  | cons b bs ih =>
    intro m h
    simp only [List.foldl_cons]
    exact ih _ (keysOf_hashFold_nodup H b.2 h)

theorem keysOf_buildHashMap_nodup (H : Hasher) (sm : SizeMap) :
    (keysOf (buildHashMap H sm)).Nodup :=
  keysOf_buildFold_nodup H (candBuckets sm) [] List.nodup_nil

/-- Every entry of `find_duplicates` is the full survivor list of its
digest, and it has at least two members. -/
theorem find_duplicates_entry (H : Hasher) (sm : SizeMap) {d : Digest}
    {vs : List Path} (h : (d, vs) ∈ find_duplicates H sm) :
    vs = survivors H sm d ∧ 1 < vs.length := by
  have hmem := List.mem_of_mem_filter h
  have hlen : 1 < vs.length := by
    have := List.of_mem_filter h
    simpa using this
  have := lookupD_eq_of_mem (keysOf_buildHashMap_nodup H sm) hmem
  rw [lookupD_buildHashMap] at this
  exact ⟨this.symm, hlen⟩

/-- Conversely, every digest with 2+ survivors appears as a group. -/
theorem find_duplicates_complete (H : Hasher) (sm : SizeMap) {d : Digest}
    (h : 1 < (survivors H sm d).length) :
    (d, survivors H sm d) ∈ find_duplicates H sm := by
  have hkey : d ∈ keysOf (buildHashMap H sm) := by
    by_contra hk
    have := lookupD_eq_nil_of_not_mem hk
    rw [lookupD_buildHashMap] at this
    rw [this] at h
    simp at h
  have hmem := mem_of_lookupD hkey
  rw [lookupD_buildHashMap] at hmem
  refine List.mem_filter.mpr ⟨hmem, ?_⟩
  simpa using h

theorem find_duplicates_keys_nodup (H : Hasher) (sm : SizeMap) :
    (keysOf (find_duplicates H sm)).Nodup := by
  have hsub : (find_duplicates H sm).Sublist (buildHashMap H sm) :=
    List.filter_sublist _
  exact (hsub.map Prod.fst).nodup (keysOf_buildHashMap_nodup H sm)

/-! ## Size Index: the per-file loop of `collect_files`

```python
for fname in files:
    fpath = os.path.join(root, fname)
    ext = os.path.splitext(fname)[1].lower()
    if skip_ext and ext in skip_ext:
        continue
    try:
        fsize = os.path.getsize(fpath)
    except OSError:
        continue
    if fsize < min_size:
        continue
    size_map[fsize].append(fpath)
    file_count += 1
```

`os.path.getsize` is an oracle `Path → Option Nat` (`none` = `OSError`).
The walk supplies `fname` as the base name of `fpath`.  `msgs` collects
every message this loop prints; the loop body contains no print call (in
particular the `except OSError` handler is silent), so no element is ever
appended to it.  (`ext in skip_ext` on an empty `skip_ext` is `False`, so
the Python truthiness guard `skip_ext and …` is equivalent to plain
membership.) -/

/-- State of the collection loop: (`size_map`, `file_count`, printed
messages). -/
structure CollectState where
  size_map : SizeMap
  file_count : Nat
  msgs : List String
deriving Repr, DecidableEq

/-- One iteration of the file loop of `collect_files`. -/
def collectStep (getSize : Path → Option Nat) (min_size : Nat)
    (skip_ext : List String) (st : CollectState) (fpath : Path) : CollectState :=
  let fname := basename fpath
  let ext := (splitextName fname).2.toLower
  if ext ∈ skip_ext then st
  else
    match getSize fpath with
    | none => st
    | some fsize =>
      if fsize < min_size then st
      else { st with size_map := addTo st.size_map fsize fpath,
                     file_count := st.file_count + 1 }

/-- The per-file loop of `collect_files` over the walked file sequence. -/
def collect_files (getSize : Path → Option Nat) (min_size : Nat)
    (skip_ext : List String) (paths : List Path) : CollectState :=
  paths.foldl (collectStep getSize min_size skip_ext)
    ⟨[], 0, []⟩

/-! ## Resolver: step 5 of `main`

```python
for fhash, paths in duplicates.items():
    original = pick_original(paths)
    for p in paths:
        if p == original:
            continue
        try:
            if DUPLICATES_FOLDER:
                rel = os.path.basename(p)
                dest = os.path.join(DUPLICATES_FOLDER, rel)
                base, ext = os.path.splitext(dest)
                counter = 1
                while os.path.exists(dest):
                    dest = f"{base}_{counter}{ext}"
                    counter += 1
                os.makedirs(DUPLICATES_FOLDER, exist_ok=True)
                shutil.move(p, dest)
            else:
                os.remove(p)
            removed += 1
        except (PermissionError, OSError) as e:
            errors += 1
```

The quarantine directory is a fixed constant, so destination paths are
modelled by their final name component: `os.path.exists(dest)` is
membership of the name in `destNames`, and `splitext(join(dir, rel))`
coincides with `splitextName rel` because the directory part contains no
further dot after its last separator.  Whether `shutil.move`/`os.remove`
raises for a given source file is an oracle `Path → Bool`.  `attempts`
records every source path handed to the try-block. -/

/-- Mutable state of the resolution loop. -/
structure RunState where
  destNames : List String
  removed : Nat
  errors : Nat
  moves : List (Path × String)
  deletes : List Path
  attempts : List Path
deriving Repr, DecidableEq

/-- Quarantine-mode body for one non-canonical file. -/
def processRemoval (fail : Path → Bool) (st : RunState) (p : Path) : RunState :=
  let rel := basename p
  let dest := freshDest st.destNames rel
  if fail p then
    { st with errors := st.errors + 1, attempts := st.attempts ++ [p] }
  else
    { st with destNames := dest :: st.destNames,
              removed := st.removed + 1,
              moves := st.moves ++ [(p, dest)],
              attempts := st.attempts ++ [p] }

/-- Delete-mode body for one non-canonical file. -/
def processDelete (fail : Path → Bool) (st : RunState) (p : Path) : RunState :=
  if fail p then
    { st with errors := st.errors + 1, attempts := st.attempts ++ [p] }
  else
    { st with deletes := st.deletes ++ [p],
              removed := st.removed + 1,
              attempts := st.attempts ++ [p] }

/-- The inner loop over one group's members in quarantine mode. -/
def resolveGroupQ (fail : Path → Bool) (st : RunState) (paths : List Path) :
    RunState :=
  let original := pick_original paths
  paths.foldl (fun st p => if p = original then st else processRemoval fail st p) st

/-- The inner loop over one group's members in delete mode. -/
def resolveGroupD (fail : Path → Bool) (st : RunState) (paths : List Path) :
    RunState :=
  let original := pick_original paths
  paths.foldl (fun st p => if p = original then st else processDelete fail st p) st

/-- The outer loop over all duplicate groups, quarantine mode. -/
def resolveQuarantine (fail : Path → Bool) (dups : List (Digest × List Path))
    (st : RunState) : RunState :=
  dups.foldl (fun st g => resolveGroupQ fail st g.2) st

/-- The outer loop over all duplicate groups, delete mode. -/
def resolveDelete (fail : Path → Bool) (dups : List (Digest × List Path))
    (st : RunState) : RunState :=
  dups.foldl (fun st g => resolveGroupD fail st g.2) st

/-- The removal sequence of a Disposition: the members not equal to the
chosen original (the `if p == original: continue` filter). -/
def removals (paths : List Path) : List Path :=
  paths.filter (fun p => p ≠ pick_original paths)

theorem processRemoval_attempts (fail : Path → Bool) (st : RunState) (p : Path) :
    (processRemoval fail st p).attempts = st.attempts ++ [p] := by
  unfold processRemoval
  by_cases hf : fail p <;> simp [hf]

theorem processDelete_attempts (fail : Path → Bool) (st : RunState) (p : Path) :
    (processDelete fail st p).attempts = st.attempts ++ [p] := by
  unfold processDelete
  by_cases hf : fail p <;> simp [hf]

theorem foldSkip_attempts (step : RunState → Path → RunState)
    (hstep : ∀ st p, (step st p).attempts = st.attempts ++ [p])
    (o : Path) (l : List Path) :
    ∀ st : RunState,
      (l.foldl (fun st p => if p = o then st else step st p) st).attempts
        = st.attempts ++ l.filter (fun p => p ≠ o) := by
  induction l with
  | nil => simp
  | cons p ps ih =>
    intro st
    simp only [List.foldl_cons, List.filter_cons]
    by_cases hp : p = o
    · simp [hp, ih]
    · rw [if_neg hp, ih, hstep]
      simp [hp, List.append_assoc]

/-- The quarantine loop hands exactly the removal sequence to its
try-block. -/
theorem resolveGroupQ_attempts (fail : Path → Bool) (st : RunState)
    (paths : List Path) :
    (resolveGroupQ fail st paths).attempts = st.attempts ++ removals paths :=
  foldSkip_attempts _ (processRemoval_attempts fail) _ paths st

/-- The delete loop hands exactly the removal sequence to its try-block. -/
theorem resolveGroupD_attempts (fail : Path → Bool) (st : RunState)
    (paths : List Path) :
    (resolveGroupD fail st paths).attempts = st.attempts ++ removals paths :=
  foldSkip_attempts _ (processDelete_attempts fail) _ paths st

/-- The original is never a member of the removal sequence. -/
theorem pick_not_mem_removals (paths : List Path) :
    pick_original paths ∉ removals paths := by
  intro h
  have := List.of_mem_filter h
  simp at this

theorem processRemoval_dest_mono (fail : Path → Bool) (st : RunState) (p : Path)
    (h : st.destNames.Nodup) :
    (processRemoval fail st p).destNames.Nodup ∧
      st.destNames <:+ (processRemoval fail st p).destNames := by
  unfold processRemoval
  by_cases hf : fail p
  · simp [hf, h]
  · simp only [hf, Bool.false_eq_true, if_neg, if_false]
    refine ⟨List.nodup_cons.mpr ⟨freshDest_not_mem _ _, h⟩, ?_⟩
    exact List.suffix_cons _ _

theorem foldSkipQ_dest_mono (fail : Path → Bool) (o : Path) (l : List Path) :
    ∀ st : RunState, st.destNames.Nodup →
      (l.foldl (fun st p => if p = o then st else processRemoval fail st p)
          st).destNames.Nodup ∧
        st.destNames <:+
          (l.foldl (fun st p => if p = o then st else processRemoval fail st p)
            st).destNames := by
  induction l with
  | nil => exact fun st h => ⟨h, List.suffix_refl _⟩
  | cons p ps ih =>
    intro st h
    simp only [List.foldl_cons]
    by_cases hp : p = o
    · simpa [hp] using ih st h
    · simp only [if_neg hp]
      obtain ⟨h1, h2⟩ := processRemoval_dest_mono fail st p h
      obtain ⟨h3, h4⟩ := ih _ h1
      exact ⟨h3, h2.trans h4⟩

theorem resolveGroupQ_dest_mono (fail : Path → Bool) (st : RunState)
    (paths : List Path) (h : st.destNames.Nodup) :
    (resolveGroupQ fail st paths).destNames.Nodup ∧
      st.destNames <:+ (resolveGroupQ fail st paths).destNames :=
  foldSkipQ_dest_mono fail _ paths st h

/-- Across the whole quarantine run the destination directory only grows:
nothing present at the start (or quarantined earlier in the run) is ever
overwritten or removed, and its contents stay duplicate-free. -/
theorem resolveQuarantine_dest_mono (fail : Path → Bool)
    (dups : List (Digest × List Path)) :
    ∀ st : RunState, st.destNames.Nodup →
      (resolveQuarantine fail dups st).destNames.Nodup ∧
        st.destNames <:+ (resolveQuarantine fail dups st).destNames := by
  induction dups with
  | nil => exact fun st h => ⟨h, List.suffix_refl _⟩
  | cons g gs ih =>
    intro st h
    show ((gs.foldl _ (resolveGroupQ fail st g.2)).destNames.Nodup ∧ _)
    obtain ⟨h1, h2⟩ := resolveGroupQ_dest_mono fail st g.2 h
    obtain ⟨h3, h4⟩ := ih _ h1
    exact ⟨h3, h2.trans h4⟩

/-- If the base name is free at the destination it is used untouched. -/
theorem freshDest_of_not_mem {names : List String} {fname : String}
    (h : fname ∉ names) : freshDest names fname = fname := by
  unfold freshDest searchDest
  simp [h]

/-- The collision loop returns the first free candidate: some tested name,
free, with every earlier tested name actually present. -/
theorem searchDest_first (names : List String) (base ext : String) :
    ∀ fuel c dest, (∃ k ≤ fuel, candAt base ext c dest k ∉ names) →
      ∃ k, searchDest names base ext fuel c dest = candAt base ext c dest k ∧
        candAt base ext c dest k ∉ names ∧
        ∀ j < k, candAt base ext c dest j ∈ names := by
  intro fuel
  induction fuel with
  | zero =>
    intro c dest ⟨k, hk, hfree⟩
    have hk0 : k = 0 := Nat.le_zero.mp hk
    subst hk0
    exact ⟨0, rfl, hfree, by omega⟩
  | succ fuel ih =>
    intro c dest ⟨k, hk, hfree⟩
    rw [searchDest]
    by_cases hmem : dest ∈ names
    · rw [if_pos hmem]
      have hex : ∃ k' ≤ fuel,
          candAt base ext (c + 1) (disamb base ext c) k' ∉ names := by
        match k with
        | 0 => exact absurd hmem hfree
        | k + 1 => exact ⟨k, by omega, hfree⟩
      obtain ⟨k', heq, hfree', hall⟩ := ih (c + 1) (disamb base ext c) hex
      refine ⟨k' + 1, heq, hfree', ?_⟩
      intro j hj
      match j with
      | 0 => exact hmem
      | j + 1 => exact hall j (by omega)
    · rw [if_neg hmem]
      exact ⟨0, rfl, hmem, by omega⟩

/-- If the base name is taken, the chosen destination is
`f"{base}_{k}{ext}"` for the first counter value `k ≥ 1` whose name is
unused, every smaller counter having produced a used name. -/
theorem freshDest_of_mem {names : List String} {fname : String}
    (h : fname ∈ names) :
    ∃ k, 1 ≤ k ∧
      freshDest names fname
        = disamb (splitextName fname).1 (splitextName fname).2 k ∧
      freshDest names fname ∉ names ∧
      ∀ j, 1 ≤ j → j < k →
        disamb (splitextName fname).1 (splitextName fname).2 j ∈ names := by
  obtain ⟨k, heq, hfree, hall⟩ := searchDest_first names
    (splitextName fname).1 (splitextName fname).2 (names.length + 1) 1 fname
    (by
      obtain ⟨k, hk, hfree⟩ := exists_free_cand names (splitext_join fname)
      exact ⟨k, by omega, hfree⟩)
  match k, heq, hfree, hall with
  | 0, _, hfree, _ =>
    rw [candAt_zero] at hfree
    exact absurd h hfree
  | k + 1, heq, hfree, hall =>
    refine ⟨1 + k, by omega, ?_, ?_, ?_⟩
    · show freshDest names fname = _
      unfold freshDest
      rw [heq, candAt_succ]
    · show freshDest names fname ∉ names
      unfold freshDest
      rw [heq]
      exact hfree
    · intro j h1 hj
      have := hall j (by omega)
      match j, h1, this with
      | j + 1, _, hm =>
        rw [candAt_succ] at hm
        have hcong : 1 + j = j + 1 := by omega
        rwa [hcong] at hm

/-! ## Support lemmas for the claim theorems -/

/-- Whether the collection loop keeps `p` into bucket `s`. -/
def collectKeeps (getSize : Path → Option Nat) (min_size : Nat)
    (skip_ext : List String) (s : Nat) (p : Path) : Prop :=
  (splitextName (basename p)).2.toLower ∉ skip_ext ∧
    getSize p = some s ∧ min_size ≤ s

instance (getSize : Path → Option Nat) (min_size : Nat)
    (skip_ext : List String) (s : Nat) (p : Path) :
    Decidable (collectKeeps getSize min_size skip_ext s p) := by
  unfold collectKeeps
  infer_instance

theorem collectStep_msgs (getSize : Path → Option Nat) (min_size : Nat)
    (skip_ext : List String) (st : CollectState) (p : Path) :
    (collectStep getSize min_size skip_ext st p).msgs = st.msgs := by
  unfold collectStep
  by_cases hext : (splitextName (basename p)).2.toLower ∈ skip_ext
  · simp [hext]
  · simp only [if_neg hext]
    cases getSize p with
    | none => rfl
    | some s =>
      by_cases hs : s < min_size
      · simp [hs]
      · simp [hs]

/-- The collection loop never prints anything. -/
theorem collect_files_msgs (getSize : Path → Option Nat) (min_size : Nat)
    (skip_ext : List String) (paths : List Path) :
    (collect_files getSize min_size skip_ext paths).msgs = [] := by
  unfold collect_files
  generalize hst : (⟨[], 0, []⟩ : CollectState) = st
  have hmsgs : st.msgs = [] := by rw [← hst]
  clear hst
  induction paths generalizing st with
  | nil => exact hmsgs
  | cons p ps ih =>
    simp only [List.foldl_cons]
    exact ih _ (by rw [collectStep_msgs]; exact hmsgs)

theorem collectFold_lookup (getSize : Path → Option Nat) (min_size : Nat)
    (skip_ext : List String) (s : Nat) (l : List Path) :
    ∀ st : CollectState,
      lookupD (l.foldl (collectStep getSize min_size skip_ext) st).size_map s
        = lookupD st.size_map s
          ++ l.filter (fun p => collectKeeps getSize min_size skip_ext s p) := by
  induction l with
  | nil => simp
  | cons p ps ih =>
    intro st
    simp only [List.foldl_cons, List.filter_cons]
    rw [ih]
    unfold collectStep
    by_cases hext : (splitextName (basename p)).2.toLower ∈ skip_ext
    · have hk : ¬ collectKeeps getSize min_size skip_ext s p := fun hc => hc.1 hext
      simp [hext, hk]
    · simp only [if_neg hext]
      cases hg : getSize p with
      | none =>
        have hk : ¬ collectKeeps getSize min_size skip_ext s p := fun hc => by
          have h2 := hc.2.1
          rw [hg] at h2
          exact Option.noConfusion h2
        simp [hk]
      | some fsize =>
        by_cases hs : fsize < min_size
        · have hk : ¬ collectKeeps getSize min_size skip_ext s p := fun hc => by
            have h2 := hc.2.1
            rw [hg] at h2
            have h3 := Option.some.inj h2
            have h4 := hc.2.2
            omega
          simp [hs, hk]
        · simp only [if_neg hs]
          by_cases hfs : fsize = s
          · have hk : collectKeeps getSize min_size skip_ext s p :=
              ⟨hext, by rw [hg, hfs], by omega⟩
            simp [hfs, hk, lookupD_addTo_self, List.append_assoc]
          · have hk : ¬ collectKeeps getSize min_size skip_ext s p := fun hc => by
              have h2 := hc.2.1
              rw [hg] at h2
              exact hfs (Option.some.inj h2)
            simp [hk, lookupD_addTo_ne _ _ _ _ (fun he => hfs he.symm)]

/-- Bucket contents of the Size Index: exactly the walked paths that pass
the extension filter, stat successfully with size `s`, and meet the
minimum size. -/
theorem collect_files_lookup (getSize : Path → Option Nat) (min_size : Nat)
    (skip_ext : List String) (paths : List Path) (s : Nat) :
    lookupD (collect_files getSize min_size skip_ext paths).size_map s
      = paths.filter (fun p => collectKeeps getSize min_size skip_ext s p) := by
  unfold collect_files
  rw [collectFold_lookup]
  rfl

/-- The hashed candidates are drawn from the size map's contents. -/
theorem hashedPaths_sublist (sm : SizeMap) :
    (hashedPaths sm).Sublist (sm.flatMap (fun b => b.2)) := by
  unfold hashedPaths candBuckets
  induction sm with
  | nil => simp
  | cons b bs ih =>
    simp only [List.filter_cons, List.flatMap_cons]
    by_cases hb : 1 < b.2.length
    · rw [if_pos (by simpa using hb)]
      simp only [List.flatMap_cons]
      exact ih.append_left b.2
    · rw [if_neg (by simpa using hb)]
      exact ih.trans (List.sublist_append_right _ _)

/-- With all buckets of size at most one, there are no candidates. -/
theorem candBuckets_eq_nil {sm : SizeMap} (h : ∀ b ∈ sm, b.2.length ≤ 1) :
    candBuckets sm = [] := by
  unfold candBuckets
  rw [List.filter_eq_nil_iff]
  intro b hb
  simpa using h b hb

theorem survivors_mem {H : Hasher} {sm : SizeMap} {d : Digest} {p : Path}
    (h : p ∈ survivors H sm d) : p ∈ hashedPaths sm ∧ H p = some d := by
  unfold survivors at h
  refine ⟨List.mem_of_mem_filter h, ?_⟩
  simpa using List.of_mem_filter h

/-! ## Claim theorems -/

/-- **C1**: For every Disposition derived from a (non-empty) duplicate
group, the chosen canonical original is a member of the group and never
appears in the removals sequence, and the Resolver never moves or deletes
it: the loop hands exactly the removal sequence — which excludes every
member equal to the original — to its move/delete block, in both
quarantine and delete mode. -/
theorem C1_original_untouched (paths : List Path) (h : paths ≠ []) :
    pick_original paths ∈ paths ∧
    pick_original paths ∉ removals paths ∧
    (∀ (fail : Path → Bool) (st : RunState),
      (resolveGroupQ fail st paths).attempts = st.attempts ++ removals paths) ∧
    (∀ (fail : Path → Bool) (st : RunState),
      (resolveGroupD fail st paths).attempts = st.attempts ++ removals paths) :=
  ⟨pick_original_mem h, pick_not_mem_removals paths,
    fun fail st => resolveGroupQ_attempts fail st paths,
    fun fail st => resolveGroupD_attempts fail st paths⟩

theorem C1_original_untouched_witness :
    ((["data/a.txt", "a.txt"] : List Path) ≠ []) ∧
    (pick_original ["data/a.txt", "a.txt"] ∈ (["data/a.txt", "a.txt"] : List Path) ∧
      pick_original ["data/a.txt", "a.txt"] ∉ removals ["data/a.txt", "a.txt"] ∧
      (∀ (fail : Path → Bool) (st : RunState),
        (resolveGroupQ fail st ["data/a.txt", "a.txt"]).attempts
          = st.attempts ++ removals ["data/a.txt", "a.txt"]) ∧
      (∀ (fail : Path → Bool) (st : RunState),
        (resolveGroupD fail st ["data/a.txt", "a.txt"]).attempts
          = st.attempts ++ removals ["data/a.txt", "a.txt"])) :=
  ⟨by decide, C1_original_untouched ["data/a.txt", "a.txt"] (by decide)⟩

/-- **C3**: for an input whose size buckets each hold at most one file
(in particular, files with pairwise-distinct sizes), the Duplicate
Grouper emits zero groups and passes no path to the Hasher. -/
theorem C3_distinct_sizes_no_hashing (H : Hasher) (sm : SizeMap)
    (h : ∀ b ∈ sm, b.2.length ≤ 1) :
    find_duplicates H sm = [] ∧ hashedPaths sm = [] := by
  have hc := candBuckets_eq_nil h
  constructor
  · unfold find_duplicates buildHashMap
    rw [hc]
    rfl
  · unfold hashedPaths
    rw [hc]
    rfl

theorem C3_distinct_sizes_no_hashing_witness :
    (∀ b ∈ ([(1, ["a"]), (2, ["b"]), (3, ["c"])] : SizeMap), b.2.length ≤ 1) ∧
    (find_duplicates (fun _ => some "h") [(1, ["a"]), (2, ["b"]), (3, ["c"])] = [] ∧
      hashedPaths [(1, ["a"]), (2, ["b"]), (3, ["c"])] = []) :=
  ⟨by decide,
    C3_distinct_sizes_no_hashing (fun _ => some "h")
      [(1, ["a"]), (2, ["b"]), (3, ["c"])] (by decide)⟩

/-- **C4**: for every non-empty group the Resolution Policy selects the
member that is minimal for the total order (path length, then
lexicographic path comparison), and selection is invariant under any
permutation of the member order. -/
theorem C4_pick_original_minimal_stable (paths : List Path) (h : paths ≠ []) :
    (pick_original paths ∈ paths ∧
      ∀ q ∈ paths, q ≠ pick_original paths → KeyLT (pick_original paths) q) ∧
    (∀ paths' : List Path, paths.Perm paths' →
      pick_original paths = pick_original paths') := by
  refine ⟨⟨pick_original_mem h, ?_⟩, fun ps' hp => pick_original_perm h hp⟩
  intro q hq hne
  rcases keyLT_total hne with ht | ht
  · exact absurd ht (pick_original_min h q hq)
  · exact ht

theorem C4_pick_original_minimal_stable_witness :
    ((["dir/b.txt", "a.txt", "cc.txt"] : List Path) ≠ []) ∧
    ((pick_original ["dir/b.txt", "a.txt", "cc.txt"]
        ∈ (["dir/b.txt", "a.txt", "cc.txt"] : List Path) ∧
      ∀ q ∈ (["dir/b.txt", "a.txt", "cc.txt"] : List Path),
        q ≠ pick_original ["dir/b.txt", "a.txt", "cc.txt"] →
          KeyLT (pick_original ["dir/b.txt", "a.txt", "cc.txt"]) q) ∧
    (∀ paths' : List Path, (["dir/b.txt", "a.txt", "cc.txt"] : List Path).Perm paths' →
      pick_original ["dir/b.txt", "a.txt", "cc.txt"] = pick_original paths')) :=
  ⟨by decide, C4_pick_original_minimal_stable ["dir/b.txt", "a.txt", "cc.txt"] (by decide)⟩

/-- **C5**: in quarantine mode the Resolver never overwrites a file
already present at the destination: the destination contents only grow
(everything present beforehand, including files quarantined earlier in
the run, is a suffix of the final contents, which stay duplicate-free),
a free base name is used untouched, and a taken base name gets the
numeric disambiguator `f"{base}_{k}{ext}"` for the first counter value
`k ≥ 1` whose name is unused, every smaller counter having been tried
and found used. -/
theorem C5_quarantine_never_overwrites (fail : Path → Bool)
    (dups : List (Digest × List Path)) (st : RunState)
    (h : st.destNames.Nodup) :
    ((resolveQuarantine fail dups st).destNames.Nodup ∧
      st.destNames <:+ (resolveQuarantine fail dups st).destNames) ∧
    (∀ (names : List String) (fname : String), fname ∉ names →
      freshDest names fname = fname) ∧
    (∀ (names : List String) (fname : String), fname ∈ names →
      freshDest names fname ∉ names ∧
      ∃ k, 1 ≤ k ∧
        freshDest names fname
          = disamb (splitextName fname).1 (splitextName fname).2 k ∧
        ∀ j, 1 ≤ j → j < k →
          disamb (splitextName fname).1 (splitextName fname).2 j ∈ names) := by
  refine ⟨resolveQuarantine_dest_mono fail dups st h,
    fun names fname hf => freshDest_of_not_mem hf, ?_⟩
  intro names fname hf
  obtain ⟨k, h1, h2, h3, h4⟩ := freshDest_of_mem hf
  exact ⟨h3, k, h1, h2, h4⟩

theorem C5_quarantine_never_overwrites_witness :
    ((⟨["a.txt", "b.txt"], 0, 0, [], [], []⟩ : RunState).destNames.Nodup) ∧
    (((resolveQuarantine (fun _ => false) [("h", ["x/a.txt", "y/a.txt"])]
        ⟨["a.txt", "b.txt"], 0, 0, [], [], []⟩).destNames.Nodup ∧
      (⟨["a.txt", "b.txt"], 0, 0, [], [], []⟩ : RunState).destNames <:+
        (resolveQuarantine (fun _ => false) [("h", ["x/a.txt", "y/a.txt"])]
          ⟨["a.txt", "b.txt"], 0, 0, [], [], []⟩).destNames) ∧
    (∀ (names : List String) (fname : String), fname ∉ names →
      freshDest names fname = fname) ∧
    (∀ (names : List String) (fname : String), fname ∈ names →
      freshDest names fname ∉ names ∧
      ∃ k, 1 ≤ k ∧
        freshDest names fname
          = disamb (splitextName fname).1 (splitextName fname).2 k ∧
        ∀ j, 1 ≤ j → j < k →
          disamb (splitextName fname).1 (splitextName fname).2 j ∈ names)) :=
  ⟨by decide,
    C5_quarantine_never_overwrites (fun _ => false) [("h", ["x/a.txt", "y/a.txt"])]
      ⟨["a.txt", "b.txt"], 0, 0, [], [], []⟩ (by decide)⟩

/-- **C6** (counterexample): with `report.pdf` already present at the
quarantine destination and two duplicate groups each producing a removal
named `report.pdf`, the claimed destination names `report.pdf_1` and
`report.pdf_2` do **not** appear: the code splits off the extension
before appending the counter. -/
theorem C6_report_pdf_counterexample :
    "report.pdf_1" ∉ (resolveQuarantine (fun _ => false)
      [("h1", ["C:\\a\\report.pdf", "C:\\bb\\report.pdf"]),
       ("h2", ["C:\\c\\report.pdf", "C:\\dd\\report.pdf"])]
      ⟨["report.pdf"], 0, 0, [], [], []⟩).destNames ∧
    "report.pdf_2" ∉ (resolveQuarantine (fun _ => false)
      [("h1", ["C:\\a\\report.pdf", "C:\\bb\\report.pdf"]),
       ("h2", ["C:\\c\\report.pdf", "C:\\dd\\report.pdf"])]
      ⟨["report.pdf"], 0, 0, [], [], []⟩).destNames := by decide

/-- **C6** (amended): in that scenario the two moved files end up in the
destination under `report_1.pdf` and `report_2.pdf` (the numeric
disambiguator is inserted before the extension), the pre-existing
`report.pdf` is untouched, and the source original of each group is never
handed to the move block. -/
theorem C6_report_pdf_quarantine :
    (resolveQuarantine (fun _ => false)
      [("h1", ["C:\\a\\report.pdf", "C:\\bb\\report.pdf"]),
       ("h2", ["C:\\c\\report.pdf", "C:\\dd\\report.pdf"])]
      ⟨["report.pdf"], 0, 0, [], [], []⟩)
      = ⟨["report_2.pdf", "report_1.pdf", "report.pdf"], 2, 0,
          [("C:\\bb\\report.pdf", "report_1.pdf"),
           ("C:\\dd\\report.pdf", "report_2.pdf")], [],
          ["C:\\bb\\report.pdf", "C:\\dd\\report.pdf"]⟩ ∧
    "C:\\a\\report.pdf" ∉ (resolveQuarantine (fun _ => false)
      [("h1", ["C:\\a\\report.pdf", "C:\\bb\\report.pdf"]),
       ("h2", ["C:\\c\\report.pdf", "C:\\dd\\report.pdf"])]
      ⟨["report.pdf"], 0, 0, [], [], []⟩).attempts ∧
    "C:\\c\\report.pdf" ∉ (resolveQuarantine (fun _ => false)
      [("h1", ["C:\\a\\report.pdf", "C:\\bb\\report.pdf"]),
       ("h2", ["C:\\c\\report.pdf", "C:\\dd\\report.pdf"])]
      ⟨["report.pdf"], 0, 0, [], [], []⟩).attempts := by decide

/-- **C2** (counterexample): the single `hash_map` is shared across size
buckets, so two records from *different* size buckets that receive the
same digest are placed in the same emitted group, whose members then do
not share a byte size. -/
theorem C2_cross_bucket_counterexample :
    ("d0", ["a", "b", "cc", "dd"])
      ∈ find_duplicates (fun _ => some "d0") [(1, ["a", "b"]), (2, ["cc", "dd"])] ∧
    "a" ∈ lookupD ([(1, ["a", "b"]), (2, ["cc", "dd"])] : SizeMap) 1 ∧
    "cc" ∈ lookupD ([(1, ["a", "b"]), (2, ["cc", "dd"])] : SizeMap) 2 := by decide

/-- **C2** (amended): every member of an emitted group was hashed and
carries exactly the group's digest; but the grouping map is keyed by
digest alone, so records from different size buckets that receive the
same digest land in one group and identical byte size is not guaranteed. -/
theorem C2_group_digest_only (H : Hasher) (sm : SizeMap) :
    ∀ g ∈ find_duplicates H sm, ∀ p ∈ g.2,
      H p = some g.1 ∧ p ∈ hashedPaths sm := by
  intro g hg p hp
  obtain ⟨hsurv, _⟩ := @find_duplicates_entry H sm g.1 g.2 hg
  rw [hsurv] at hp
  obtain ⟨hm, hd⟩ := survivors_mem hp
  exact ⟨hd, hm⟩

theorem C2_group_digest_only_witness :
    (("d0", ["a", "b", "cc", "dd"])
      ∈ find_duplicates (fun _ => some "d0") [(1, ["a", "b"]), (2, ["cc", "dd"])]) ∧
    ("a" ∈ (("d0", ["a", "b", "cc", "dd"]) : Digest × List Path).2) ∧
    ((fun _ => some "d0" : Hasher) "a" = some ("d0", ["a", "b", "cc", "dd"]).1 ∧
      "a" ∈ hashedPaths [(1, ["a", "b"]), (2, ["cc", "dd"])]) :=
  ⟨by decide, by decide,
    C2_group_digest_only (fun _ => some "d0") [(1, ["a", "b"]), (2, ["cc", "dd"])]
      ("d0", ["a", "b", "cc", "dd"]) (by decide) "a" (by decide)⟩

/-- **C7**: every emitted group has at least two members; a digest with
exactly one surviving member is dropped; a digest with two or more
surviving members yields exactly one group (the digest keys are free of
duplicates); and a path the Hasher fails on joins no group — in
particular a bucket all of whose members fail to hash contributes to no
group. -/
theorem C7_group_emission (H : Hasher) (sm : SizeMap) :
    (∀ g ∈ find_duplicates H sm, 1 < g.2.length) ∧
    (∀ d : Digest, (survivors H sm d).length = 1 →
      d ∉ keysOf (find_duplicates H sm)) ∧
    (∀ d : Digest, 1 < (survivors H sm d).length →
      (d, survivors H sm d) ∈ find_duplicates H sm) ∧
    (keysOf (find_duplicates H sm)).Nodup ∧
    (∀ b ∈ sm, (∀ p ∈ b.2, H p = none) →
      ∀ g ∈ find_duplicates H sm, ∀ p ∈ b.2, p ∉ g.2) := by
  refine ⟨?_, ?_, fun d hd => find_duplicates_complete H sm hd,
    find_duplicates_keys_nodup H sm, ?_⟩
  · intro g hg
    exact (@find_duplicates_entry H sm g.1 g.2 hg).2
  · intro d hd hk
    obtain ⟨e, hmem, hfst⟩ := List.mem_map.mp hk
    obtain ⟨hsurv, hlen⟩ := @find_duplicates_entry H sm e.1 e.2 hmem
    rw [hfst] at hsurv
    rw [hsurv] at hlen
    omega
  · intro b _hb hfail g hg p hp hpg
    obtain ⟨hsurv, _⟩ := @find_duplicates_entry H sm g.1 g.2 hg
    rw [hsurv] at hpg
    have hd := (survivors_mem hpg).2
    rw [hfail p hp] at hd
    exact Option.noConfusion hd

theorem C7_group_emission_witness :
    ((survivors (fun p => if p = "z" then none else some "d0")
        [(1, ["a", "b"]), (2, ["z", "w"])] "d0").length = 1 →
      "d0" ∉ keysOf (find_duplicates
        (fun p => if p = "z" then none else some "d0")
        [(1, ["a", "b"]), (2, ["z", "w"])])) ∧
    (1 < (survivors (fun p => if p = "z" then none else some "d0")
        [(1, ["a", "b"]), (2, ["z", "w"])] "d0").length ∧
      ("d0", survivors (fun p => if p = "z" then none else some "d0")
          [(1, ["a", "b"]), (2, ["z", "w"])] "d0")
        ∈ find_duplicates (fun p => if p = "z" then none else some "d0")
            [(1, ["a", "b"]), (2, ["z", "w"])]) :=
  ⟨(C7_group_emission (fun p => if p = "z" then none else some "d0")
      [(1, ["a", "b"]), (2, ["z", "w"])]).2.1 "d0",
   by decide,
   (C7_group_emission (fun p => if p = "z" then none else some "d0")
      [(1, ["a", "b"]), (2, ["z", "w"])]).2.2.1 "d0" (by decide)⟩

/-- **C10**: when the walked input paths are pairwise distinct, each
candidate is hashed at most once and lands in exactly the bucket of its
own digest, the emitted groups are pairwise disjoint, and the removal
sets of distinct Dispositions never share a path. -/
theorem C10_groups_pairwise_disjoint (H : Hasher) (sm : SizeMap)
    (h : (sm.flatMap (fun b => b.2)).Nodup) :
    (hashedPaths sm).Nodup ∧
    (∀ d : Digest, (survivors H sm d).Nodup) ∧
    (∀ (p : Path) (d : Digest),
      p ∈ lookupD (buildHashMap H sm) d ↔ p ∈ hashedPaths sm ∧ H p = some d) ∧
    (∀ g₁ ∈ find_duplicates H sm, ∀ g₂ ∈ find_duplicates H sm, g₁ ≠ g₂ →
      ∀ p ∈ g₁.2, p ∉ g₂.2) ∧
    (∀ g₁ ∈ find_duplicates H sm, ∀ g₂ ∈ find_duplicates H sm, g₁ ≠ g₂ →
      ∀ p ∈ removals g₁.2, p ∉ removals g₂.2) := by
  have hnd : (hashedPaths sm).Nodup := (hashedPaths_sublist sm).nodup h
  have hdisj : ∀ g₁ ∈ find_duplicates H sm, ∀ g₂ ∈ find_duplicates H sm,
      g₁ ≠ g₂ → ∀ p ∈ g₁.2, p ∉ g₂.2 := by
    intro g₁ h₁ g₂ h₂ hne p hp₁ hp₂
    obtain ⟨hs₁, _⟩ := @find_duplicates_entry H sm g₁.1 g₁.2 h₁
    obtain ⟨hs₂, _⟩ := @find_duplicates_entry H sm g₂.1 g₂.2 h₂
    rw [hs₁] at hp₁
    rw [hs₂] at hp₂
    have hd₁ := (survivors_mem hp₁).2
    have hd₂ := (survivors_mem hp₂).2
    rw [hd₁] at hd₂
    have hkey : g₁.1 = g₂.1 := Option.some.inj hd₂
    apply hne
    have : g₁ = (g₁.1, g₁.2) := rfl
    rw [this, hs₁, hkey, ← hs₂]
  refine ⟨hnd, fun d => hnd.filter _, ?_, hdisj, ?_⟩
  · intro p d
    rw [lookupD_buildHashMap]
    unfold survivors
    simp [List.mem_filter]
  · intro g₁ h₁ g₂ h₂ hne p hp₁ hp₂
    exact hdisj g₁ h₁ g₂ h₂ hne p (List.mem_of_mem_filter hp₁)
      (List.mem_of_mem_filter hp₂)

theorem C10_groups_pairwise_disjoint_witness :
    (((([(1, ["a", "b"]), (2, ["cc", "dd"])] : SizeMap).flatMap
        (fun b => b.2)).Nodup) ∧
    ("a" ∉ (("d2", ["cc", "dd"]) : Digest × List Path).2)) :=
  ⟨by decide,
    (C10_groups_pairwise_disjoint
        (fun p => if p.length = 1 then some "d1" else some "d2")
        [(1, ["a", "b"]), (2, ["cc", "dd"])] (by decide)).2.2.2.1
      ("d1", ["a", "b"]) (by decide) ("d2", ["cc", "dd"]) (by decide)
      (by decide) "a" (by decide)⟩

/-- **C9** (counterexample): a walked path whose size cannot be
determined is dropped before bucketing, but *silently*: the loop prints
no warning for it (its `except OSError` handler is empty), while the
remaining paths are still processed. -/
theorem C9_silent_stat_failure_counterexample :
    collect_files (fun p => if p = "C:\\bad" then none else some 5) 1 []
        ["C:\\bad", "C:\\ok"]
      = ⟨[(5, ["C:\\ok"])], 1, []⟩ := by decide

/-- **C9** (amended): with no extension exclusions, a walked path is
added to the size bucket `s` if and only if its size can be determined,
equals `s`, and is at least the configured minimum (so zero-byte files
are excluded under the default threshold 1); a path whose size cannot be
determined is dropped silently — no warning is printed — rather than
causing a fatal error, and the remaining paths are processed as usual. -/
theorem C9_size_index_filter (getSize : Path → Option Nat) (min_size : Nat)
    (paths : List Path) :
    (∀ (p : Path) (s : Nat),
      p ∈ lookupD (collect_files getSize min_size [] paths).size_map s
        ↔ p ∈ paths ∧ getSize p = some s ∧ min_size ≤ s) ∧
    (collect_files getSize min_size [] paths).msgs = [] := by
  refine ⟨?_, collect_files_msgs getSize min_size [] paths⟩
  intro p s
  rw [collect_files_lookup]
  simp only [List.mem_filter, decide_eq_true_eq]
  constructor
  · rintro ⟨hp, hc⟩
    exact ⟨hp, hc.2.1, hc.2.2⟩
  · rintro ⟨hp, hg, hm⟩
    exact ⟨hp, ⟨List.not_mem_nil _, hg, hm⟩⟩

theorem C9_size_index_filter_witness :
    (("C:\\ok" ∈ lookupD (collect_files
        (fun p => if p = "C:\\bad" then none else some 5) 1 []
        ["C:\\bad", "C:\\ok"]).size_map 5
      ↔ "C:\\ok" ∈ (["C:\\bad", "C:\\ok"] : List Path) ∧
        (fun p => if p = "C:\\bad" then none else some 5 : Path → Option Nat)
          "C:\\ok" = some 5 ∧ 1 ≤ 5) ∧
    ("C:\\ok" ∈ lookupD (collect_files
        (fun p => if p = "C:\\bad" then none else some 5) 1 []
        ["C:\\bad", "C:\\ok"]).size_map 5)) :=
  ⟨(C9_size_index_filter (fun p => if p = "C:\\bad" then none else some 5) 1
      ["C:\\bad", "C:\\ok"]).1 "C:\\ok" 5,
   ((C9_size_index_filter (fun p => if p = "C:\\bad" then none else some 5) 1
      ["C:\\bad", "C:\\ok"]).1 "C:\\ok" 5).mpr ⟨by decide, by decide, by decide⟩⟩

/-! ## Per-file failure machinery (claim C8) -/

/-- The size map with every occurrence of the path `p` removed (the input
"as if `p` had been absent"). -/
def smDrop (sm : SizeMap) (p : Path) : SizeMap :=
  sm.map (fun b => (b.1, b.2.filter (fun r => r ≠ p)))

/-- The duplicate groups with every occurrence of the path `p` removed. -/
def dupsDrop (dups : List (Digest × List Path)) (p : Path) :
    List (Digest × List Path) :=
  dups.map (fun g => (g.1, g.2.filter (fun r => r ≠ p)))

/-- The externally visible outcome of the resolution loop for files other
than a failing one: destination contents, removal count, performed moves
and deletes (`errors` and `attempts` also count the failing file itself). -/
def obsR (st : RunState) :
    List String × Nat × List (Path × String) × List Path :=
  (st.destNames, st.removed, st.moves, st.deletes)

theorem processRemoval_errors (fail : Path → Bool) (st : RunState) (p : Path) :
    (processRemoval fail st p).errors
      = st.errors + (if fail p then 1 else 0) := by
  unfold processRemoval
  by_cases hf : fail p <;> simp [hf]

theorem processRemoval_removed (fail : Path → Bool) (st : RunState) (p : Path) :
    (processRemoval fail st p).removed
      = st.removed + (if fail p then 0 else 1) := by
  unfold processRemoval
  by_cases hf : fail p <;> simp [hf]

theorem processDelete_errors (fail : Path → Bool) (st : RunState) (p : Path) :
    (processDelete fail st p).errors
      = st.errors + (if fail p then 1 else 0) := by
  unfold processDelete
  by_cases hf : fail p <;> simp [hf]

theorem processDelete_removed (fail : Path → Bool) (st : RunState) (p : Path) :
    (processDelete fail st p).removed
      = st.removed + (if fail p then 0 else 1) := by
  unfold processDelete
  by_cases hf : fail p <;> simp [hf]

theorem foldSkip_count (fail : Path → Bool) (step : RunState → Path → RunState)
    (f : RunState → Nat) (g : Bool → Nat)
    (hstep : ∀ st p, f (step st p) = f st + g (fail p)) (o : Path)
    (l : List Path) :
    ∀ st : RunState,
      f (l.foldl (fun st p => if p = o then st else step st p) st)
        = f st + (((l.filter (fun r => r ≠ o)).map (fun r => g (fail r))).sum) := by
  induction l with
  | nil => simp
  | cons x xs ih =>
    intro st
    simp only [List.foldl_cons, List.filter_cons]
    by_cases hx : x = o
    · simp [hx, ih]
    · rw [if_neg hx, ih, hstep]
      simp only [hx, decide_not]
      rw [if_pos (by simp [hx])]
      simp [Nat.add_assoc]

theorem sum_if_count (fail : Path → Bool) (l : List Path) :
    (l.map (fun r => if fail r then 1 else 0)).sum = (l.filter fail).length := by
  induction l with
  | nil => rfl
  | cons x xs ih =>
    simp only [List.map_cons, List.sum_cons, List.filter_cons]
    by_cases hf : fail x
    · simp [hf, ih, Nat.add_comm]
    · simp [hf, ih]

theorem sum_ifnot_count (fail : Path → Bool) (l : List Path) :
    (l.map (fun r => if fail r then 0 else 1)).sum
      = (l.filter (fun r => ¬ fail r)).length := by
  induction l with
  | nil => rfl
  | cons x xs ih =>
    simp only [List.map_cons, List.sum_cons, List.filter_cons]
    by_cases hf : fail x
    · simp [hf, ih]
    · simp [hf, ih, Nat.add_comm]

theorem resolveGroupQ_errors (fail : Path → Bool) (st : RunState)
    (paths : List Path) :
    (resolveGroupQ fail st paths).errors
      = st.errors + ((removals paths).filter fail).length := by
  unfold resolveGroupQ removals
  rw [foldSkip_count fail (processRemoval fail) (fun st => st.errors)
    (fun b => if b then 1 else 0) (processRemoval_errors fail) _ paths st]
  rw [sum_if_count]

theorem resolveGroupQ_removed (fail : Path → Bool) (st : RunState)
    (paths : List Path) :
    (resolveGroupQ fail st paths).removed
      = st.removed + ((removals paths).filter (fun r => ¬ fail r)).length := by
  unfold resolveGroupQ removals
  rw [foldSkip_count fail (processRemoval fail) (fun st => st.removed)
    (fun b => if b then 0 else 1) (processRemoval_removed fail) _ paths st]
  rw [sum_ifnot_count]

theorem resolveGroupD_errors (fail : Path → Bool) (st : RunState)
    (paths : List Path) :
    (resolveGroupD fail st paths).errors
      = st.errors + ((removals paths).filter fail).length := by
  unfold resolveGroupD removals
  rw [foldSkip_count fail (processDelete fail) (fun st => st.errors)
    (fun b => if b then 1 else 0) (processDelete_errors fail) _ paths st]
  rw [sum_if_count]

theorem resolveGroupD_removed (fail : Path → Bool) (st : RunState)
    (paths : List Path) :
    (resolveGroupD fail st paths).removed
      = st.removed + ((removals paths).filter (fun r => ¬ fail r)).length := by
  unfold resolveGroupD removals
  rw [foldSkip_count fail (processDelete fail) (fun st => st.removed)
    (fun b => if b then 0 else 1) (processDelete_removed fail) _ paths st]
  rw [sum_ifnot_count]

theorem resolveQuarantine_errors (fail : Path → Bool)
    (dups : List (Digest × List Path)) :
    ∀ st : RunState,
      (resolveQuarantine fail dups st).errors
        = st.errors
          + ((dups.flatMap (fun g => removals g.2)).filter fail).length := by
  induction dups with
  | nil => simp [resolveQuarantine]
  | cons g gs ih =>
    intro st
    show (gs.foldl _ (resolveGroupQ fail st g.2)).errors = _
    rw [show (gs.foldl (fun st g => resolveGroupQ fail st g.2)
        (resolveGroupQ fail st g.2))
        = resolveQuarantine fail gs (resolveGroupQ fail st g.2) from rfl]
    rw [ih, resolveGroupQ_errors]
    simp [List.filter_append, Nat.add_assoc]

theorem resolveQuarantine_removed (fail : Path → Bool)
    (dups : List (Digest × List Path)) :
    ∀ st : RunState,
      (resolveQuarantine fail dups st).removed
        = st.removed
          + ((dups.flatMap (fun g => removals g.2)).filter
              (fun r => ¬ fail r)).length := by
  induction dups with
  | nil => simp [resolveQuarantine]
  | cons g gs ih =>
    intro st
    show (gs.foldl _ (resolveGroupQ fail st g.2)).removed = _
    rw [show (gs.foldl (fun st g => resolveGroupQ fail st g.2)
        (resolveGroupQ fail st g.2))
        = resolveQuarantine fail gs (resolveGroupQ fail st g.2) from rfl]
    rw [ih, resolveGroupQ_removed]
    simp [List.filter_append, Nat.add_assoc]

theorem resolveDelete_errors (fail : Path → Bool)
    (dups : List (Digest × List Path)) :
    ∀ st : RunState,
      (resolveDelete fail dups st).errors
        = st.errors
          + ((dups.flatMap (fun g => removals g.2)).filter fail).length := by
  induction dups with
  | nil => simp [resolveDelete]
  | cons g gs ih =>
    intro st
    show (gs.foldl _ (resolveGroupD fail st g.2)).errors = _
    rw [show (gs.foldl (fun st g => resolveGroupD fail st g.2)
        (resolveGroupD fail st g.2))
        = resolveDelete fail gs (resolveGroupD fail st g.2) from rfl]
    rw [ih, resolveGroupD_errors]
    simp [List.filter_append, Nat.add_assoc]

theorem resolveDelete_removed (fail : Path → Bool)
    (dups : List (Digest × List Path)) :
    ∀ st : RunState,
      (resolveDelete fail dups st).removed
        = st.removed
          + ((dups.flatMap (fun g => removals g.2)).filter
              (fun r => ¬ fail r)).length := by
  induction dups with
  | nil => simp [resolveDelete]
  | cons g gs ih =>
    intro st
    show (gs.foldl _ (resolveGroupD fail st g.2)).removed = _
    rw [show (gs.foldl (fun st g => resolveGroupD fail st g.2)
        (resolveGroupD fail st g.2))
        = resolveDelete fail gs (resolveGroupD fail st g.2) from rfl]
    rw [ih, resolveGroupD_removed]
    simp [List.filter_append, Nat.add_assoc]

theorem processRemoval_obs_congr (fail : Path → Bool) (x : Path)
    {st₁ st₂ : RunState} (h : obsR st₁ = obsR st₂) :
    obsR (processRemoval fail st₁ x) = obsR (processRemoval fail st₂ x) := by
  simp only [obsR, Prod.mk.injEq] at h
  obtain ⟨h1, h2, h3, h4⟩ := h
  unfold processRemoval
  by_cases hf : fail x
  · simp [obsR, hf, h1, h2, h3, h4]
  · simp [obsR, hf, h1, h2, h3, h4]

theorem processDelete_obs_congr (fail : Path → Bool) (x : Path)
    {st₁ st₂ : RunState} (h : obsR st₁ = obsR st₂) :
    obsR (processDelete fail st₁ x) = obsR (processDelete fail st₂ x) := by
  simp only [obsR, Prod.mk.injEq] at h
  obtain ⟨h1, h2, h3, h4⟩ := h
  unfold processDelete
  by_cases hf : fail x
  · simp [obsR, hf, h1, h2, h3, h4]
  · simp [obsR, hf, h1, h2, h3, h4]

theorem processRemoval_obs_fail (fail : Path → Bool) (st : RunState) (p : Path)
    (hf : fail p = true) : obsR (processRemoval fail st p) = obsR st := by
  unfold processRemoval
  simp [obsR, hf]

theorem processDelete_obs_fail (fail : Path → Bool) (st : RunState) (p : Path)
    (hf : fail p = true) : obsR (processDelete fail st p) = obsR st := by
  unfold processDelete
  simp [obsR, hf]

/-- Folding one group's members with a failing member `p` dropped produces
the same observable outcome: a failing move/delete leaves the visible
state untouched, so later files proceed exactly as if `p` were absent. -/
theorem foldSkip_obs_drop (step : RunState → Path → RunState) (p : Path)
    (hcongr : ∀ (x : Path) {s₁ s₂ : RunState}, obsR s₁ = obsR s₂ →
      obsR (step s₁ x) = obsR (step s₂ x))
    (hfp : ∀ st : RunState, obsR (step st p) = obsR st)
    (o : Path) (hop : o ≠ p) (l : List Path) :
    ∀ st₁ st₂ : RunState, obsR st₁ = obsR st₂ →
      obsR (l.foldl (fun st x => if x = o then st else step st x) st₁)
        = obsR ((l.filter (fun r => r ≠ p)).foldl
            (fun st x => if x = o then st else step st x) st₂) := by
  induction l with
  | nil => exact fun st₁ st₂ h => h
  | cons x xs ih =>
    intro st₁ st₂ h
    by_cases hxp : x = p
    · subst hxp
      rw [List.filter_cons_of_neg (by simp)]
      simp only [List.foldl_cons]
      rw [if_neg (fun he : x = o => hop he.symm)]
      exact ih _ _ ((hfp st₁).trans h)
    · rw [List.filter_cons_of_pos (by simp [hxp])]
      simp only [List.foldl_cons]
      by_cases hxo : x = o
      · rw [if_pos hxo, if_pos hxo]
        exact ih _ _ h
      · rw [if_neg hxo, if_neg hxo]
        exact ih _ _ (hcongr x h)

theorem resolveGroupQ_obs_drop (fail : Path → Bool) (p : Path)
    (hf : fail p = true) (paths : List Path) (hne : paths ≠ [])
    (hpick : pick_original paths ≠ p) {st₁ st₂ : RunState}
    (h : obsR st₁ = obsR st₂) :
    obsR (resolveGroupQ fail st₁ paths)
      = obsR (resolveGroupQ fail st₂ (paths.filter (fun r => r ≠ p))) := by
  unfold resolveGroupQ
  rw [pick_original_filter_ne hne hpick]
  exact foldSkip_obs_drop (processRemoval fail) p
    (processRemoval_obs_congr fail)
    (fun st => processRemoval_obs_fail fail st p hf)
    (pick_original paths) hpick paths st₁ st₂ h

theorem resolveGroupD_obs_drop (fail : Path → Bool) (p : Path)
    (hf : fail p = true) (paths : List Path) (hne : paths ≠ [])
    (hpick : pick_original paths ≠ p) {st₁ st₂ : RunState}
    (h : obsR st₁ = obsR st₂) :
    obsR (resolveGroupD fail st₁ paths)
      = obsR (resolveGroupD fail st₂ (paths.filter (fun r => r ≠ p))) := by
  unfold resolveGroupD
  rw [pick_original_filter_ne hne hpick]
  exact foldSkip_obs_drop (processDelete fail) p
    (processDelete_obs_congr fail)
    (fun st => processDelete_obs_fail fail st p hf)
    (pick_original paths) hpick paths st₁ st₂ h

/-- Quarantine run with a failing removal path `p` versus the run on the
groups with `p` absent: identical destination contents, moves, deletes
and removal count. -/
theorem resolveQuarantine_obs_drop (fail : Path → Bool) (p : Path)
    (hf : fail p = true) (dups : List (Digest × List Path))
    (hg : ∀ g ∈ dups, g.2 ≠ [] ∧ pick_original g.2 ≠ p) :
    ∀ st₁ st₂ : RunState, obsR st₁ = obsR st₂ →
      obsR (resolveQuarantine fail dups st₁)
        = obsR (resolveQuarantine fail (dupsDrop dups p) st₂) := by
  induction dups with
  | nil => exact fun st₁ st₂ h => h
  | cons g gs ih =>
    intro st₁ st₂ h
    obtain ⟨hne, hpick⟩ := hg g (List.mem_cons_self g gs)
    exact ih (fun g' hg' => hg g' (List.mem_cons_of_mem g hg')) _ _
      (resolveGroupQ_obs_drop fail p hf g.2 hne hpick h)

theorem resolveDelete_obs_drop (fail : Path → Bool) (p : Path)
    (hf : fail p = true) (dups : List (Digest × List Path))
    (hg : ∀ g ∈ dups, g.2 ≠ [] ∧ pick_original g.2 ≠ p) :
    ∀ st₁ st₂ : RunState, obsR st₁ = obsR st₂ →
      obsR (resolveDelete fail dups st₁)
        = obsR (resolveDelete fail (dupsDrop dups p) st₂) := by
  induction dups with
  | nil => exact fun st₁ st₂ h => h
  | cons g gs ih =>
    intro st₁ st₂ h
    obtain ⟨hne, hpick⟩ := hg g (List.mem_cons_self g gs)
    exact ih (fun g' hg' => hg g' (List.mem_cons_of_mem g hg')) _ _
      (resolveGroupD_obs_drop fail p hf g.2 hne hpick h)

theorem lookupD_filterLen {α : Type} [DecidableEq α] :
    ∀ m : List (α × List Path), (keysOf m).Nodup → ∀ k : α,
      lookupD (m.filter (fun b => 1 < b.2.length)) k
        = if 1 < (lookupD m k).length then lookupD m k else [] := by
  intro m
  induction m with
  | nil =>
    intro _ k
    simp [lookupD]
  | cons kv rest ih =>
    intro hnd k
    obtain ⟨k', vs⟩ := kv
    have hkeys : keysOf ((k', vs) :: rest) = k' :: keysOf rest := rfl
    have hnd' := List.nodup_cons.mp (hkeys ▸ hnd)
    by_cases hk : k' = k
    · subst hk
      have hlk : lookupD ((k', vs) :: rest) k' = vs := by simp [lookupD]
      by_cases hlen : 1 < vs.length
      · rw [List.filter_cons_of_pos (by simpa using hlen), hlk, if_pos hlen]
        simp [lookupD]
      · rw [List.filter_cons_of_neg (by simpa using hlen), hlk, if_neg hlen]
        apply lookupD_eq_nil_of_not_mem
        intro hmem
        apply hnd'.1
        exact ((List.filter_sublist rest).map Prod.fst).subset hmem
    · by_cases hlen : 1 < vs.length
      · rw [List.filter_cons_of_pos (by simpa using hlen)]
        simp only [lookupD, if_neg hk]
        exact ih hnd'.2 k
      · rw [List.filter_cons_of_neg (by simpa using hlen)]
        simp only [lookupD, if_neg hk]
        exact ih hnd'.2 k

/-- The group emitted for a digest: all its survivors when there are 2+,
nothing otherwise. -/
theorem lookupD_find_duplicates (H : Hasher) (sm : SizeMap) (d : Digest) :
    lookupD (find_duplicates H sm) d
      = if 1 < (survivors H sm d).length then survivors H sm d else [] := by
  unfold find_duplicates
  rw [lookupD_filterLen _ (keysOf_buildHashMap_nodup H sm) d,
    lookupD_buildHashMap]

theorem mem_group_facts {H : Hasher} {sm : SizeMap} {q : Path} {d : Digest}
    (h : q ∈ lookupD (find_duplicates H sm) d) :
    q ∈ hashedPaths sm ∧ H q = some d ∧ 1 < (survivors H sm d).length := by
  rw [lookupD_find_duplicates] at h
  by_cases hl : 1 < (survivors H sm d).length
  · rw [if_pos hl] at h
    obtain ⟨hm, hd⟩ := survivors_mem h
    exact ⟨hm, hd, hl⟩
  · rw [if_neg hl] at h
    exact absurd h (List.not_mem_nil q)

theorem survivors_eq_flatMap (H : Hasher) (sm : SizeMap) (d : Digest) :
    survivors H sm d
      = (candBuckets sm).flatMap
          (fun b => b.2.filter (fun r => H r = some d)) := by
  unfold survivors hashedPaths
  exact List.filter_flatMap (candBuckets sm) (fun b => b.2) _

theorem flatMap_eq_single {α β : Type} (l : List α) (f : α → List β) (b : α)
    (hb : b ∈ l) (hnd : l.Nodup) (hothers : ∀ b' ∈ l, b' ≠ b → f b' = []) :
    l.flatMap f = f b := by
  induction l with
  | nil => exact absurd hb (List.not_mem_nil b)
  | cons x xs ih =>
    have hx := List.nodup_cons.mp hnd
    simp only [List.flatMap_cons]
    rcases List.mem_cons.mp hb with rfl | hb'
    · have hrest : xs.flatMap f = [] := by
        rw [List.flatMap_eq_nil_iff]
        intro b' hb'
        exact hothers b' (List.mem_cons_of_mem _ hb')
          (fun he => hx.1 (he ▸ hb'))
      rw [hrest, List.append_nil]
    · rw [hothers x (List.mem_cons_self x xs) (fun he => hx.1 (he ▸ hb')),
        List.nil_append]
      exact ih hb' hx.2
        (fun b' hb'' hne => hothers b' (List.mem_cons_of_mem x hb'') hne)

theorem entries_eq_of_keys_nodup {α β : Type} :
    ∀ {m : List (α × β)}, (m.map Prod.fst).Nodup →
      ∀ {e₁ e₂ : α × β}, e₁ ∈ m → e₂ ∈ m → e₁.1 = e₂.1 → e₁ = e₂ := by
  intro m
  induction m with
  | nil =>
    intro _ e₁ _ h₁
    exact absurd h₁ (List.not_mem_nil e₁)
  | cons x xs ih =>
    intro hnd e₁ e₂ h₁ h₂ he
    have hx := List.nodup_cons.mp hnd
    rcases List.mem_cons.mp h₁ with rfl | h₁' <;>
      rcases List.mem_cons.mp h₂ with h2e | h₂'
    · exact h2e.symm
    · exact absurd (List.mem_map.mpr ⟨e₂, h₂', he.symm⟩) hx.1
    · rw [h2e] at h₂
      exact absurd (List.mem_map.mpr ⟨e₁, h₁', h2e ▸ he⟩) hx.1
    · exact ih hx.2 h₁' h₂' he

/-- A duplicate-free concatenation means distinct buckets are disjoint. -/
theorem flatten_disjoint {sm : SizeMap}
    (h : (sm.flatMap (fun b => b.2)).Nodup) :
    ∀ b₁ ∈ sm, ∀ b₂ ∈ sm, b₁ ≠ b₂ → ∀ q ∈ b₁.2, q ∉ b₂.2 := by
  induction sm with
  | nil =>
    intro b₁ h₁
    exact absurd h₁ (List.not_mem_nil b₁)
  | cons b bs ih =>
    intro b₁ h₁ b₂ h₂ hne q hq₁ hq₂
    rw [List.flatMap_cons, List.nodup_append] at h
    obtain ⟨_, hrest, hdisj⟩ := h
    rcases List.mem_cons.mp h₁ with rfl | h₁' <;>
      rcases List.mem_cons.mp h₂ with h2e | h₂'
    · exact hne h2e.symm
    · exact hdisj hq₁ (List.mem_flatMap.mpr ⟨b₂, h₂', hq₂⟩)
    · rw [h2e] at hq₂
      exact hdisj hq₂ (List.mem_flatMap.mpr ⟨b₁, h₁', hq₁⟩)
    · exact ih hrest b₁ h₁' b₂ h₂' hne q hq₁ hq₂

theorem bucket_sublist_flatten {sm : SizeMap} {b : Nat × List Path}
    (h : b ∈ sm) : b.2.Sublist (sm.flatMap (fun x => x.2)) := by
  induction sm with
  | nil => exact absurd h (List.not_mem_nil b)
  | cons x xs ih =>
    simp only [List.flatMap_cons]
    rcases List.mem_cons.mp h with rfl | h'
    · exact List.sublist_append_left _ _
    · exact (ih h').trans (List.sublist_append_right _ _)

/-- Membership of `q` in the group keyed `d`, characterized by `q`'s own
bucket, assuming no digest is shared across size buckets. -/
theorem groupMem_iff (H : Hasher) {sm : SizeMap} (hkeys : (keysOf sm).Nodup)
    (hnodup : (sm.flatMap (fun b => b.2)).Nodup)
    (hcross : ∀ b₁ ∈ sm, ∀ b₂ ∈ sm, b₁.1 ≠ b₂.1 →
      ∀ q ∈ b₁.2, ∀ r ∈ b₂.2, ∀ d : Digest, H q = some d → H r ≠ some d)
    {b : Nat × List Path} (hb : b ∈ sm) {q : Path} (hq : q ∈ b.2) {d : Digest}
    (hd : H q = some d) :
    (q ∈ lookupD (find_duplicates H sm) d ↔
      1 < b.2.length ∧ 1 < (b.2.filter (fun r => H r = some d)).length) := by
  rw [lookupD_find_duplicates]
  by_cases hcand : 1 < b.2.length
  · have hbc : b ∈ candBuckets sm :=
      List.mem_filter.mpr ⟨hb, by simpa using hcand⟩
    have hcnd : (candBuckets sm).Nodup :=
      List.Nodup.of_map Prod.fst
        (((List.filter_sublist sm).map Prod.fst).nodup hkeys)
    have hsv : survivors H sm d = b.2.filter (fun r => H r = some d) := by
      rw [survivors_eq_flatMap]
      apply flatMap_eq_single _ _ b hbc hcnd
      intro b' hb' hne
      rw [List.filter_eq_nil_iff]
      intro r hr hrd
      have hb's : b' ∈ sm := List.mem_of_mem_filter hb'
      have hkne : b'.1 ≠ b.1 := fun he =>
        hne (entries_eq_of_keys_nodup hkeys hb's hb he)
      exact absurd hd
        (hcross b' hb's b hb hkne r hr q hq d (by simpa using hrd))
    rw [hsv]
    constructor
    · intro hmem
      by_cases hl : 1 < (b.2.filter (fun r => H r = some d)).length
      · exact ⟨hcand, hl⟩
      · rw [if_neg hl] at hmem
        exact absurd hmem (List.not_mem_nil q)
    · rintro ⟨_, hl⟩
      rw [if_pos hl]
      exact List.mem_filter.mpr ⟨hq, by simpa using hd⟩
  · have hqnot : q ∉ survivors H sm d := by
      intro hmem
      have hqh := (survivors_mem hmem).1
      unfold hashedPaths at hqh
      obtain ⟨b₂, hb₂, hqb₂⟩ := List.mem_flatMap.mp hqh
      have hb₂s : b₂ ∈ sm := List.mem_of_mem_filter hb₂
      have hb₂c : 1 < b₂.2.length := by simpa using List.of_mem_filter hb₂
      have hne : b ≠ b₂ := fun he => hcand (by rw [he]; exact hb₂c)
      exact flatten_disjoint hnodup b hb b₂ hb₂s hne q hq hqb₂
    constructor
    · intro hmem
      by_cases hl : 1 < (survivors H sm d).length
      · rw [if_pos hl] at hmem
        exact absurd hmem hqnot
      · rw [if_neg hl] at hmem
        exact absurd hmem (List.not_mem_nil q)
    · rintro ⟨hc, _⟩
      exact absurd hc hcand

theorem keysOf_smDrop (sm : SizeMap) (p : Path) :
    keysOf (smDrop sm p) = keysOf sm := by
  unfold smDrop keysOf
  rw [List.map_map]
  rfl

theorem smDrop_flatten_sublist (sm : SizeMap) (p : Path) :
    ((smDrop sm p).flatMap (fun b => b.2)).Sublist
      (sm.flatMap (fun b => b.2)) := by
  unfold smDrop
  induction sm with
  | nil => simp
  | cons b bs ih =>
    simp only [List.map_cons, List.flatMap_cons]
    exact (List.filter_sublist _).append ih

theorem smDrop_cross {H : Hasher} {sm : SizeMap} {p : Path}
    (hcross : ∀ b₁ ∈ sm, ∀ b₂ ∈ sm, b₁.1 ≠ b₂.1 →
      ∀ q ∈ b₁.2, ∀ r ∈ b₂.2, ∀ d : Digest, H q = some d → H r ≠ some d) :
    ∀ b₁ ∈ smDrop sm p, ∀ b₂ ∈ smDrop sm p, b₁.1 ≠ b₂.1 →
      ∀ q ∈ b₁.2, ∀ r ∈ b₂.2, ∀ d : Digest, H q = some d → H r ≠ some d := by
  intro b₁ h₁ b₂ h₂ hne q hq r hr d hqd
  obtain ⟨a₁, ha₁, rfl⟩ := List.mem_map.mp h₁
  obtain ⟨a₂, ha₂, rfl⟩ := List.mem_map.mp h₂
  exact hcross a₁ ha₁ a₂ ha₂ hne q (List.mem_of_mem_filter hq)
    r (List.mem_of_mem_filter hr) d hqd

theorem filter_ne_length_of_mem {l : List Path} {p : Path} (hnd : l.Nodup)
    (hm : p ∈ l) :
    (l.filter (fun r => r ≠ p)).length = l.length - 1 := by
  induction l with
  | nil => exact absurd hm (List.not_mem_nil p)
  | cons x xs ih =>
    have hx := List.nodup_cons.mp hnd
    rcases List.mem_cons.mp hm with rfl | hm'
    · rw [List.filter_cons_of_neg (by simp)]
      rw [List.filter_eq_self.mpr
        (fun r hr => by
          simp only [decide_eq_true_eq]
          exact fun he => hx.1 (he ▸ hr))]
      simp
    · rw [List.filter_cons_of_pos (by
        simp only [decide_eq_true_eq]
        exact fun he => hx.1 (he ▸ hm'))]
      rw [List.length_cons, ih hx.2 hm']
      have : 1 ≤ xs.length := List.length_pos.mpr (List.ne_nil_of_mem hm')
      simp only [List.length_cons]
      omega

/-- When the Hasher fails on `p` and no digest is shared across size
buckets, every other file's group membership is the same as if `p` had
been absent from the input. -/
theorem grouper_drop_failed (H : Hasher) (sm : SizeMap) (p : Path)
    (hfp : H p = none) (hnodup : (sm.flatMap (fun b => b.2)).Nodup)
    (hkeys : (keysOf sm).Nodup)
    (hcross : ∀ b₁ ∈ sm, ∀ b₂ ∈ sm, b₁.1 ≠ b₂.1 →
      ∀ q ∈ b₁.2, ∀ r ∈ b₂.2, ∀ d : Digest, H q = some d → H r ≠ some d)
    (q : Path) (hqp : q ≠ p) (d : Digest) :
    (q ∈ lookupD (find_duplicates H sm) d
      ↔ q ∈ lookupD (find_duplicates H (smDrop sm p)) d) := by
  have hkeys' : (keysOf (smDrop sm p)).Nodup := by
    rw [keysOf_smDrop]
    exact hkeys
  have hnodup' : ((smDrop sm p).flatMap (fun b => b.2)).Nodup :=
    (smDrop_flatten_sublist sm p).nodup hnodup
  have hcross' := @smDrop_cross H sm p hcross
  by_cases hqb : ∃ b ∈ sm, q ∈ b.2
  · obtain ⟨b, hb, hqb2⟩ := hqb
    by_cases hHq : H q = some d
    · have hb' : (b.1, b.2.filter (fun r => r ≠ p)) ∈ smDrop sm p :=
        List.mem_map.mpr ⟨b, hb, rfl⟩
      have hq' : q ∈ b.2.filter (fun r => r ≠ p) :=
        List.mem_filter.mpr ⟨hqb2, by simpa using hqp⟩
      rw [groupMem_iff H hkeys hnodup hcross hb hqb2 hHq,
        groupMem_iff H hkeys' hnodup' hcross' hb' hq' hHq]
      have hFF : (b.2.filter (fun r => r ≠ p)).filter (fun r => H r = some d)
          = b.2.filter (fun r => H r = some d) := by
        rw [List.filter_comm]
        apply List.filter_eq_self.mpr
        intro r hr
        have hrd : H r = some d := by simpa using List.of_mem_filter hr
        simp only [decide_eq_true_eq]
        intro he
        rw [he, hfp] at hrd
        exact Option.noConfusion hrd
      show _ ↔ 1 < (b.2.filter (fun r => r ≠ p)).length ∧ _
      rw [hFF]
      by_cases hpb : p ∈ b.2
      · have hbnd : b.2.Nodup := (bucket_sublist_flatten hb).nodup hnodup
        have hflen := filter_ne_length_of_mem hbnd hpb
        have hFle : (b.2.filter (fun r => H r = some d)).length
            ≤ (b.2.filter (fun r => r ≠ p)).length := by
          rw [← hFF]
          exact (List.filter_sublist _).length_le
        constructor
        · rintro ⟨_, hl2⟩
          exact ⟨by omega, hl2⟩
        · rintro ⟨hl1, hl2⟩
          exact ⟨by omega, hl2⟩
      · have hself : b.2.filter (fun r => r ≠ p) = b.2 :=
          List.filter_eq_self.mpr
            (fun r hr => by
              simp only [decide_eq_true_eq]
              intro he
              exact hpb (he ▸ hr))
        rw [hself]
    · constructor
      · intro hm
        exact absurd (mem_group_facts hm).2.1 hHq
      · intro hm
        exact absurd (mem_group_facts hm).2.1 hHq
  · push_neg at hqb
    constructor
    · intro hm
      have hqh := (mem_group_facts hm).1
      have h3 : q ∈ sm.flatMap (fun b => b.2) :=
        (hashedPaths_sublist sm).subset hqh
      obtain ⟨b, hb, hq⟩ := List.mem_flatMap.mp h3
      exact absurd hq (hqb b hb)
    · intro hm
      have hqh := (mem_group_facts hm).1
      have h2 : q ∈ (smDrop sm p).flatMap (fun b => b.2) :=
        (hashedPaths_sublist _).subset hqh
      have h3 : q ∈ sm.flatMap (fun b => b.2) :=
        (smDrop_flatten_sublist sm p).subset h2
      obtain ⟨b, hb, hq⟩ := List.mem_flatMap.mp h3
      exact absurd hq (hqb b hb)

/-- **C8** (counterexample): a hash failure is *not* always equivalent to
the failing file being absent.  With a digest shared across the two size
buckets, the bucket-mate `q` of the failing file `p` joins a group, while
with `p` absent its bucket is never hashed and no group is emitted. -/
theorem C8_not_as_if_absent_counterexample :
    (fun r => if r = "p" then none
      else if r = "ss" then some "e" else some ("d" : Digest)) "p" = none ∧
    find_duplicates
      (fun r => if r = "p" then none
        else if r = "ss" then some "e" else some "d")
      [(1, ["p", "q"]), (2, ["rr", "ss"])] = [("d", ["q", "rr"])] ∧
    find_duplicates
      (fun r => if r = "p" then none
        else if r = "ss" then some "e" else some "d")
      [(1, ["q"]), (2, ["rr", "ss"])] = [] := by decide

/-- **C8** (amended): no per-file failure aborts the run.  A record the
Hasher fails on joins no group; the surviving candidates still get their
digests exactly as before; every failing move/delete is recorded in the
error count and every succeeding one in the removed count, in both modes;
the Resolver's outcome for every other file (destination contents, moves,
deletes, removed count) is the same as if the failing file had been
absent; and the Grouper's outcome for every other file is likewise —
provided no two files from different size buckets receive the same
digest. -/
theorem C8_per_file_failure_isolation (H : Hasher) (sm : SizeMap)
    (fail : Path → Bool) (dups : List (Digest × List Path)) (st : RunState)
    (p : Path) :
    (H p = none → ∀ g ∈ find_duplicates H sm, p ∉ g.2) ∧
    (∀ q, q ≠ p → ∀ d : Digest,
      (q ∈ survivors H sm d ↔
        q ∈ survivors (fun r => if r = p then none else H r) sm d)) ∧
    ((resolveQuarantine fail dups st).errors
        = st.errors
          + ((dups.flatMap (fun g => removals g.2)).filter fail).length ∧
      (resolveQuarantine fail dups st).removed
        = st.removed
          + ((dups.flatMap (fun g => removals g.2)).filter
              (fun r => ¬ fail r)).length ∧
      (resolveDelete fail dups st).errors
        = st.errors
          + ((dups.flatMap (fun g => removals g.2)).filter fail).length ∧
      (resolveDelete fail dups st).removed
        = st.removed
          + ((dups.flatMap (fun g => removals g.2)).filter
              (fun r => ¬ fail r)).length) ∧
    (fail p = true → (∀ g ∈ dups, g.2 ≠ [] ∧ pick_original g.2 ≠ p) →
      obsR (resolveQuarantine fail dups st)
          = obsR (resolveQuarantine fail (dupsDrop dups p) st) ∧
        obsR (resolveDelete fail dups st)
          = obsR (resolveDelete fail (dupsDrop dups p) st)) ∧
    (H p = none → (sm.flatMap (fun b => b.2)).Nodup → (keysOf sm).Nodup →
      (∀ b₁ ∈ sm, ∀ b₂ ∈ sm, b₁.1 ≠ b₂.1 →
        ∀ q ∈ b₁.2, ∀ r ∈ b₂.2, ∀ d : Digest, H q = some d → H r ≠ some d) →
      ∀ q, q ≠ p → ∀ d : Digest,
        (q ∈ lookupD (find_duplicates H sm) d
          ↔ q ∈ lookupD (find_duplicates H (smDrop sm p)) d)) := by
  refine ⟨?_, ?_,
    ⟨resolveQuarantine_errors fail dups st,
      resolveQuarantine_removed fail dups st,
      resolveDelete_errors fail dups st,
      resolveDelete_removed fail dups st⟩, ?_, ?_⟩
  · intro hfp g hg hpg
    obtain ⟨hsurv, _⟩ := @find_duplicates_entry H sm g.1 g.2 hg
    rw [hsurv] at hpg
    have hd := (survivors_mem hpg).2
    rw [hfp] at hd
    exact Option.noConfusion hd
  · intro q hqp d
    unfold survivors
    constructor
    · intro hm
      obtain ⟨h1, h2⟩ := List.mem_filter.mp hm
      refine List.mem_filter.mpr ⟨h1, ?_⟩
      simpa [hqp] using h2
    · intro hm
      obtain ⟨h1, h2⟩ := List.mem_filter.mp hm
      refine List.mem_filter.mpr ⟨h1, ?_⟩
      simpa [hqp] using h2
  · intro hf hg
    exact ⟨resolveQuarantine_obs_drop fail p hf dups hg st st rfl,
      resolveDelete_obs_drop fail p hf dups hg st st rfl⟩
  · intro hfp hnodup hkeys hcross q hqp d
    exact grouper_drop_failed H sm p hfp hnodup hkeys hcross q hqp d

theorem C8_per_file_failure_isolation_witness :
    ((fun r => r = "fb" : Path → Bool) "fb" = true) ∧
    (∀ g ∈ ([("h", ["a", "fb", "cc"])] : List (Digest × List Path)),
      g.2 ≠ [] ∧ pick_original g.2 ≠ "fb") ∧
    (obsR (resolveQuarantine (fun r => r = "fb")
        [("h", ["a", "fb", "cc"])] ⟨[], 0, 0, [], [], []⟩)
      = obsR (resolveQuarantine (fun r => r = "fb")
          (dupsDrop [("h", ["a", "fb", "cc"])] "fb")
          ⟨[], 0, 0, [], [], []⟩)) ∧
    ("q" ∈ lookupD (find_duplicates
        (fun r => if r = "pp" then none else some "d")
        [(1, ["pp", "q", "r"])]) "d"
      ↔ "q" ∈ lookupD (find_duplicates
          (fun r => if r = "pp" then none else some "d")
          (smDrop [(1, ["pp", "q", "r"])] "pp")) "d") :=
  ⟨by decide, by decide,
    ((C8_per_file_failure_isolation
        (fun r => if r = "pp" then none else some "d") [(1, ["pp", "q", "r"])]
        (fun r => r = "fb") [("h", ["a", "fb", "cc"])]
        ⟨[], 0, 0, [], [], []⟩ "fb").2.2.2.1 (by decide) (by decide)).1,
    (C8_per_file_failure_isolation
        (fun r => if r = "pp" then none else some "d") [(1, ["pp", "q", "r"])]
        (fun r => r = "fb") [("h", ["a", "fb", "cc"])]
        ⟨[], 0, 0, [], [], []⟩ "pp").2.2.2.2 (by decide) (by decide) (by decide)
      (by
        intro b₁ h₁ b₂ h₂ hne
        rw [List.mem_singleton] at h₁ h₂
        exact absurd (by rw [h₁, h₂]) hne)
      "q" (by decide) "d"⟩

